import Mathlib

/-!
Shallow embedding of the bit-vector SLS valuation core
(`bv::sls_valuation` / `bvect` from `src/ast/sls/sls_valuation.cpp`).

A `bvect` of width `bw` is stored as `nw = ceil(bw/32)` machine words of
32 bits; we model the word array contents as a natural number holding the
`32*nw` physical bits.  Word-parallel bitwise C++ loops (`&`, `|`, `^`, `~`
over all words) coincide with the corresponding `Nat` bitwise operations on
that number; genuinely word-sensitive loops (the top-word searches in
`get_at_most` / `get_at_least`, the top-word mask of the constructor) are
modelled word by word through `wordOf`.
-/

namespace BvSls

/-- Number of machine words (`digit_t` is 32 bits): `nw = ceil(bw/32)`. -/
def numWords (bw : Nat) : Nat := (bw + 31) / 32

/-- Number of physical bits in the word array: `32 * nw`. -/
def totalBits (bw : Nat) : Nat := 32 * numWords bw

/-- The top-word mask from `set_bw`: `(1 << (bw % 32)) - 1`, or all ones when
`bw % 32 == 0`. -/
def wmask (bw : Nat) : Nat := if bw % 32 = 0 then 2 ^ 32 - 1 else 2 ^ (bw % 32) - 1

/-- Bitwise complement within the low `n` bits (the C++ `~` on words,
restricted to the `n` physical bits we track). -/
def compl (n v : Nat) : Nat := (2 ^ n - 1) ^^^ v

/-- Word `i` of the array backing `v`. -/
def wordOf (v i : Nat) : Nat := (v >>> (32 * i)) % 2 ^ 32

/-- `bvect::set(i, b)`: write bit `i`. -/
def setB (v i : Nat) (b : Bool) : Nat := if v.testBit i = b then v else v ^^^ 2 ^ i

/-- `log2` of a single machine word: index of its highest set bit
(0 for the zero word, on which the source leaves it undefined). -/
def wlog2 (w : Nat) : Nat :=
  (List.range 32).foldl (fun acc k => if w.testBit k then k else acc) 0

/-- Index of the most significant word of `x` (among words `0..nw-1`) that is
nonzero, scanning as the `for (i = nw; i-- > 0;)` loops do; `none` if all are
zero. -/
def topNonzeroWord (x nw : Nat) : Option Nat :=
  (List.range nw).foldl (fun acc i => if wordOf x i ≠ 0 then some i else acc) none

/-- The valuation state: five same-width vectors of `sls_valuation`. -/
structure Val where
  bw : Nat
  lo : Nat
  hi : Nat
  bits : Nat
  fixed : Nat
  eval : Nat

/-- `sls_valuation::sls_valuation(bw)`: all five vectors zeroed, then
`fixed[nw-1] = ~mask`, i.e. the physical positions `bw .. 32*nw - 1` of
`fixed` are set. -/
def fresh (bw : Nat) : Val :=
  ⟨bw, 0, 0, 0, 2 ^ totalBits bw - 2 ^ bw, 0⟩

/-- `has_overflow(v)`: `v.word(nw-1) & ~mask != 0`. -/
def has_overflow (bw v : Nat) : Bool :=
  (wordOf v (numWords bw - 1) &&& compl 32 (wmask bw)) != 0

/-- `sls_valuation::in_range(bits)`: membership in the circular interval
`[lo, hi)`, with `lo == hi` meaning the full domain. -/
def in_range (s : Val) (v : Nat) : Bool :=
  if s.lo = s.hi then true
  else if s.lo < s.hi then decide (s.lo ≤ v) && decide (v < s.hi)
  else decide (s.lo ≤ v) || decide (v < s.hi)

/-- `sls_valuation::can_set(new_bits)`: agreement with `bits` on every fixed
bit, and `in_range`. -/
def can_set (s : Val) (v : Nat) : Bool :=
  (((v ^^^ s.bits) &&& s.fixed) == 0) && in_range s v

/-- Modelled from the spec: `bvect::sub1` (declared in the header only)
decrements modulo `2^bw`. -/
def sub1 (bw v : Nat) : Nat := (v + (2 ^ bw - 1)) % 2 ^ bw

/-- `sls_valuation::round_up(dst)`: snap `dst` up into `[lo, hi)`;
`none` models the `false` return. -/
def round_up (s : Val) (dst : Nat) : Option Nat :=
  if s.lo < s.hi then
    if s.hi ≤ dst then none
    else if dst < s.lo then some s.lo
    else some dst
  else
    if s.hi ≤ dst ∧ dst < s.lo then some s.lo else some dst

/-- `sls_valuation::round_down(dst)`: snap `dst` down into `[lo, hi)`;
`none` models the `false` return. -/
def round_down (s : Val) (dst : Nat) : Option Nat :=
  if s.lo < s.hi then
    if dst < s.lo then none
    else if s.hi ≤ dst then some (sub1 s.bw s.hi)
    else some dst
  else
    if s.hi ≤ dst ∧ dst < s.lo then some (sub1 s.bw s.hi) else some dst

/-- `sls_valuation::set_repair(try_down, dst)`: force fixed-bit agreement,
round in the requested direction, fall back to the other direction (the
`VERIFY` in the source), then store into `eval` and return `true`.  The
impossible double-failure is modelled as a `false` return. -/
def set_repair (s : Val) (tryDown : Bool) (dst : Nat) : Bool × Val :=
  let d := (compl (totalBits s.bw) s.fixed &&& dst) ||| (s.fixed &&& s.bits)
  match (if tryDown then round_down s d else round_up s d) with
  | some d2 => (true, { s with eval := d2 })
  | none =>
    match (if tryDown then round_up s d else round_down s d) with
    | some d2 => (true, { s with eval := d2 })
    | none => (false, s)

/-- `sls_valuation::commit_eval()`: copy `eval` into `bits`. -/
def commit_eval (s : Val) : Val := { s with bits := s.eval }

/-- C1: for every overflow-free value `v`, `in_range(v)` holds iff `v` lies in
the circular interval `[lo, hi)`: always when `lo = hi`; iff `lo ≤ v < hi`
when `lo < hi`; iff `v < hi` or `lo ≤ v` when `hi < lo`. -/
theorem in_range_circular (s : Val) (v : Nat) (hv : v < 2 ^ s.bw) :
    (s.lo = s.hi → in_range s v = true) ∧
    (s.lo < s.hi → (in_range s v = true ↔ s.lo ≤ v ∧ v < s.hi)) ∧
    (s.hi < s.lo → (in_range s v = true ↔ v < s.hi ∨ s.lo ≤ v)) := by
  unfold in_range
  refine ⟨fun h => by simp [h], fun h => ?_, fun h => ?_⟩
  · rw [if_neg (by omega), if_pos h]
    simp [and_comm]
  · rw [if_neg (by omega), if_neg (by omega)]
    simp [or_comm]

/-- Witness for C1 at a concrete wrap-around state. -/
theorem in_range_circular_w :
    ((⟨8, 0xF0, 0x10, 0, 0, 0⟩ : Val).lo = (⟨8, 0xF0, 0x10, 0, 0, 0⟩ : Val).hi →
      in_range ⟨8, 0xF0, 0x10, 0, 0, 0⟩ 5 = true) ∧
    ((⟨8, 0xF0, 0x10, 0, 0, 0⟩ : Val).lo < (⟨8, 0xF0, 0x10, 0, 0, 0⟩ : Val).hi →
      (in_range ⟨8, 0xF0, 0x10, 0, 0, 0⟩ 5 = true ↔ 0xF0 ≤ 5 ∧ 5 < 0x10)) ∧
    ((⟨8, 0xF0, 0x10, 0, 0, 0⟩ : Val).hi < (⟨8, 0xF0, 0x10, 0, 0, 0⟩ : Val).lo →
      (in_range ⟨8, 0xF0, 0x10, 0, 0, 0⟩ 5 = true ↔ 5 < 0x10 ∨ 0xF0 ≤ 5)) :=
  in_range_circular ⟨8, 0xF0, 0x10, 0, 0, 0⟩ 5 (by decide)

/-- C9: `round_up` and `round_down` are idempotent: whenever a first
application succeeds, a second application succeeds with the same value. -/
theorem round_up_down_idempotent (s : Val) (hlo : s.lo < 2 ^ s.bw)
    (hhi : s.hi < 2 ^ s.bw) :
    (∀ v r, v < 2 ^ s.bw → round_up s v = some r → round_up s r = some r) ∧
    (∀ v r, v < 2 ^ s.bw → round_down s v = some r → round_down s r = some r) := by
  have hp : 0 < 2 ^ s.bw := Nat.pos_pow_of_pos _ (by omega)
  constructor
  · intro v r _hv h
    unfold round_up at h ⊢
    by_cases hlh : s.lo < s.hi
    · rw [if_pos hlh] at h ⊢
      by_cases h1 : s.hi ≤ v
      · rw [if_pos h1] at h; exact absurd h (by simp)
      · rw [if_neg h1] at h
        by_cases h2 : v < s.lo
        · rw [if_pos h2] at h
          have hr : r = s.lo := by simpa using h.symm
          subst hr
          rw [if_neg (by omega), if_neg (by omega)]
        · rw [if_neg h2] at h
          have hr : r = v := by simpa using h.symm
          subst hr
          rw [if_neg h1, if_neg h2]
    · rw [if_neg hlh] at h ⊢
      by_cases h1 : s.hi ≤ v ∧ v < s.lo
      · rw [if_pos h1] at h
        have hr : r = s.lo := by simpa using h.symm
        subst hr
        rw [if_neg (by omega)]
      · rw [if_neg h1] at h
        have hr : r = v := by simpa using h.symm
        subst hr
        rw [if_neg h1]
  · intro v r _hv h
    unfold round_down at h ⊢
    by_cases hlh : s.lo < s.hi
    · rw [if_pos hlh] at h ⊢
      by_cases h1 : v < s.lo
      · rw [if_pos h1] at h; exact absurd h (by simp)
      · rw [if_neg h1] at h
        by_cases h2 : s.hi ≤ v
        · rw [if_pos h2] at h
          have hr : r = sub1 s.bw s.hi := by simpa using h.symm
          have hsub : sub1 s.bw s.hi = s.hi - 1 := by
            unfold sub1
            have : s.hi + (2 ^ s.bw - 1) = (s.hi - 1) + 1 * 2 ^ s.bw := by omega
            rw [this, Nat.add_mul_mod_self_right, Nat.mod_eq_of_lt (by omega)]
          subst hr
          rw [hsub, if_neg (by omega), if_neg (by omega)]
        · rw [if_neg h2] at h
          have hr : r = v := by simpa using h.symm
          subst hr
          rw [if_neg h1, if_neg h2]
    · rw [if_neg hlh] at h ⊢
      by_cases h1 : s.hi ≤ v ∧ v < s.lo
      · rw [if_pos h1] at h
        have hr : r = sub1 s.bw s.hi := by simpa using h.symm
        subst hr
        by_cases hz : s.hi = 0
        · have hsub : sub1 s.bw s.hi = 2 ^ s.bw - 1 := by
            unfold sub1
            rw [hz, Nat.zero_add, Nat.mod_eq_of_lt (by omega)]
          rw [hsub, if_neg (by omega)]
        · have hsub : sub1 s.bw s.hi = s.hi - 1 := by
            unfold sub1
            have : s.hi + (2 ^ s.bw - 1) = (s.hi - 1) + 1 * 2 ^ s.bw := by omega
            rw [this, Nat.add_mul_mod_self_right, Nat.mod_eq_of_lt (by omega)]
          rw [hsub, if_neg (by omega)]
      · rw [if_neg h1] at h
        have hr : r = v := by simpa using h.symm
        subst hr
        rw [if_neg h1]

/-- Witness for C9 at a concrete linear-interval state. -/
theorem round_up_down_idempotent_w :
    (∀ v r, v < 2 ^ 8 → round_up ⟨8, 0x10, 0x20, 0, 0, 0⟩ v = some r →
      round_up ⟨8, 0x10, 0x20, 0, 0, 0⟩ r = some r) ∧
    (∀ v r, v < 2 ^ 8 → round_down ⟨8, 0x10, 0x20, 0, 0, 0⟩ v = some r →
      round_down ⟨8, 0x10, 0x20, 0, 0, 0⟩ r = some r) :=
  round_up_down_idempotent ⟨8, 0x10, 0x20, 0, 0, 0⟩ (by decide) (by decide)

/-- C8: `set_repair` always returns `true`: the two rounding directions can
never both fail, so when the requested direction fails the opposite one
succeeds (the `VERIFY` in the source never fires). -/
theorem set_repair_total (s : Val) (tryDown : Bool) (dst : Nat)
    (hdst : dst < 2 ^ s.bw) :
    (set_repair s tryDown dst).1 = true ∧
    (∀ d, round_down s d = none → (round_up s d).isSome = true) ∧
    (∀ d, round_up s d = none → (round_down s d).isSome = true) := by
  have hdown : ∀ d, round_down s d = none → s.lo < s.hi ∧ d < s.lo := by
    intro d h
    unfold round_down at h
    by_cases hlh : s.lo < s.hi
    · rw [if_pos hlh] at h
      by_cases h1 : d < s.lo
      · exact ⟨hlh, h1⟩
      · rw [if_neg h1] at h
        by_cases h2 : s.hi ≤ d
        · rw [if_pos h2] at h; cases h
        · rw [if_neg h2] at h; cases h
    · rw [if_neg hlh] at h
      by_cases h1 : s.hi ≤ d ∧ d < s.lo
      · rw [if_pos h1] at h; cases h
      · rw [if_neg h1] at h; cases h
  have hup : ∀ d, round_up s d = none → s.lo < s.hi ∧ s.hi ≤ d := by
    intro d h
    unfold round_up at h
    by_cases hlh : s.lo < s.hi
    · rw [if_pos hlh] at h
      by_cases h1 : s.hi ≤ d
      · exact ⟨hlh, h1⟩
      · rw [if_neg h1] at h
        by_cases h2 : d < s.lo
        · rw [if_pos h2] at h; cases h
        · rw [if_neg h2] at h; cases h
    · rw [if_neg hlh] at h
      by_cases h1 : s.hi ≤ d ∧ d < s.lo
      · rw [if_pos h1] at h; cases h
      · rw [if_neg h1] at h; cases h
  have hud : ∀ d, round_down s d = none → (round_up s d).isSome = true := by
    intro d h
    obtain ⟨h1, h2⟩ := hdown d h
    unfold round_up
    rw [if_pos h1, if_neg (by omega), if_pos h2]
    rfl
  have hdu : ∀ d, round_up s d = none → (round_down s d).isSome = true := by
    intro d h
    obtain ⟨h1, h2⟩ := hup d h
    unfold round_down
    rw [if_pos h1, if_neg (by omega), if_pos h2]
    rfl
  refine ⟨?_, hud, hdu⟩
  unfold set_repair
  cases tryDown with
  | true =>
    simp only
    cases hrd : round_down s ((compl (totalBits s.bw) s.fixed &&& dst) ||| (s.fixed &&& s.bits)) with
    | some d2 => rfl
    | none =>
      have := hud _ hrd
      cases hru : round_up s ((compl (totalBits s.bw) s.fixed &&& dst) ||| (s.fixed &&& s.bits)) with
      | some d2 => rfl
      | none => rw [hru] at this; simp [Option.isSome] at this
  | false =>
    simp only
    cases hru : round_up s ((compl (totalBits s.bw) s.fixed &&& dst) ||| (s.fixed &&& s.bits)) with
    | some d2 => rfl
    | none =>
      have := hdu _ hru
      cases hrd : round_down s ((compl (totalBits s.bw) s.fixed &&& dst) ||| (s.fixed &&& s.bits)) with
      | some d2 => rfl
      | none => rw [hrd] at this; simp [Option.isSome] at this

/-- Witness for C8 at a concrete state and input. -/
theorem set_repair_total_w :
    (set_repair ⟨8, 0x10, 0x20, 0, 0xFFFFFF00, 0⟩ true 0x05).1 = true ∧
    (∀ d, round_down ⟨8, 0x10, 0x20, 0, 0xFFFFFF00, 0⟩ d = none →
      (round_up ⟨8, 0x10, 0x20, 0, 0xFFFFFF00, 0⟩ d).isSome = true) ∧
    (∀ d, round_up ⟨8, 0x10, 0x20, 0, 0xFFFFFF00, 0⟩ d = none →
      (round_down ⟨8, 0x10, 0x20, 0, 0xFFFFFF00, 0⟩ d).isSome = true) :=
  set_repair_total ⟨8, 0x10, 0x20, 0, 0xFFFFFF00, 0⟩ true 0x05 (by decide)

/-- `sls_valuation::add_range(l, h)`: intersect the interval with
`[l mod 2^bw, h mod 2^bw)`.  Faithful to the source, including the
unsatisfiable guard `old_hi < h && h < old_hi` of the linear sub-case and the
use of the already-updated `old_lo` in the wrap sub-case; afterwards `eval`
is reset to `lo` if it fell out of range. -/
def add_range (s : Val) (l0 h0 : Nat) : Val :=
  let l := l0 % 2 ^ s.bw
  let h := h0 % 2 ^ s.bw
  if h = l then s
  else
    let lo' := if s.lo = s.hi then l
               else if s.lo < s.hi then (if s.lo < l ∧ l < s.hi then l else s.lo)
               else (if s.lo < l ∨ l < s.hi then l else s.lo)
    let hi' := if s.lo = s.hi then h
               else if s.lo < s.hi then (if s.hi < h ∧ h < s.hi then h else s.hi)
               else (if lo' < h ∧ h < s.hi then h
                     else if s.hi < lo' ∧ (h < s.hi ∨ lo' < h) then h else s.hi)
    let e' := if in_range ⟨s.bw, lo', hi', s.bits, s.fixed, s.eval⟩ s.eval then s.eval
              else lo'
    ⟨s.bw, lo', hi', s.bits, s.fixed, e'⟩

/-- C2: evaluation of `add_range` at the failing input.  From the linear
interval `[0x10, 0x20)`, `add_range(0x12, 0x18)` tightens `lo` to `0x12` but
leaves `hi` at `0x20`, although `0x10 < 0x18 < 0x20`: the source's guard
`old_hi < h && h < old_hi` can never hold, so `hi` is never tightened in the
linear sub-case. -/
theorem add_range_linear_hi_dead :
    (add_range (add_range (fresh 8) 0x10 0x20) 0x12 0x18).lo = 0x12 ∧
    (add_range (add_range (fresh 8) 0x10 0x20) 0x12 0x18).hi = 0x20 ∧
    ((fresh 8).lo < 0x18 ∧ (0x18 : Nat) < 0x20) := by decide

/-- C7: `add_range` only ever shrinks the feasible interval: any value that is
`in_range` after `add_range(l, h)` was already `in_range` before. -/
theorem add_range_monotone (s : Val) (l0 h0 v : Nat)
    (hfx : s.fixed = 2 ^ totalBits s.bw - 2 ^ s.bw)
    (hv : v < 2 ^ s.bw)
    (h : in_range (add_range s l0 h0) v = true) : in_range s v = true := by
  unfold add_range at h
  by_cases h0eq : h0 % 2 ^ s.bw = l0 % 2 ^ s.bw
  · rw [if_pos h0eq] at h; exact h
  · rw [if_neg h0eq] at h
    set l := l0 % 2 ^ s.bw with hl
    set h' := h0 % 2 ^ s.bw with hh
    by_cases hfull : s.lo = s.hi
    · unfold in_range
      rw [if_pos hfull]
    · unfold in_range at h ⊢
      rw [if_neg hfull] at h ⊢
      by_cases hlin : s.lo < s.hi
      · -- linear: lo possibly tightened upward, hi unchanged (dead clause)
        rw [if_pos hlin] at h ⊢
        simp only [if_pos hfull, if_neg hfull, if_pos hlin] at h
        by_cases hc : s.lo < l ∧ l < s.hi
        · rw [if_pos hc] at h
          rw [if_neg (by omega : ¬ (s.hi < h' ∧ h' < s.hi))] at h
          simp only [if_neg (by omega : ¬ (l : Nat) = s.hi), if_pos (by omega : l < s.hi)] at h
          simp only [Bool.and_eq_true, decide_eq_true_eq] at h
          simp only [Bool.and_eq_true, decide_eq_true_eq]
          omega
        · rw [if_neg hc] at h
          rw [if_neg (by omega : ¬ (s.hi < h' ∧ h' < s.hi))] at h
          simp only [if_neg hfull, if_pos hlin] at h
          exact h
      · -- wrap: hi < lo
        have hwrap : s.hi < s.lo := by omega
        rw [if_neg hlin] at h ⊢
        simp only [if_neg hfull, if_neg hlin] at h
        simp only [Bool.or_eq_true, decide_eq_true_eq] at h ⊢
        by_cases hc : s.lo < l ∨ l < s.hi
        · rw [if_pos hc] at h
          by_cases hd : l < h' ∧ h' < s.hi
          · -- new interval [l, h') with l < h' < old hi
            simp only [if_pos hd] at h
            by_cases hleq : (l : Nat) = h'
            · omega
            · rw [if_neg hleq] at h
              rw [if_pos (by omega : l < h')] at h
              simp only [Bool.and_eq_true, decide_eq_true_eq] at h
              omega
          · simp only [if_neg hd] at h
            by_cases he : s.hi < l ∧ (h' < s.hi ∨ l < h')
            · simp only [if_pos he] at h
              by_cases hleq : (l : Nat) = h'
              · omega
              · rw [if_neg hleq] at h
                by_cases hlh2 : l < h'
                · rw [if_pos hlh2] at h
                  simp only [Bool.and_eq_true, decide_eq_true_eq] at h
                  omega
                · rw [if_neg hlh2] at h
                  simp only [Bool.or_eq_true, decide_eq_true_eq] at h
                  omega
            · simp only [if_neg he] at h
              by_cases hleq : (l : Nat) = s.hi
              · rw [if_pos hleq] at h
                omega
              · rw [if_neg hleq] at h
                by_cases hlh2 : l < s.hi
                · rw [if_pos hlh2] at h
                  simp only [Bool.and_eq_true, decide_eq_true_eq] at h
                  omega
                · rw [if_neg hlh2] at h
                  simp only [Bool.or_eq_true, decide_eq_true_eq] at h
                  omega
        · rw [if_neg hc] at h
          by_cases hd : s.lo < h' ∧ h' < s.hi
          · omega
          · simp only [if_neg hd] at h
            by_cases he : s.hi < s.lo ∧ (h' < s.hi ∨ s.lo < h')
            · simp only [if_pos he] at h
              by_cases hleq : s.lo = h'
              · rw [if_pos hleq] at h
                omega
              · rw [if_neg hleq] at h
                by_cases hlh2 : s.lo < h'
                · rw [if_pos hlh2] at h
                  simp only [Bool.and_eq_true, decide_eq_true_eq] at h
                  omega
                · rw [if_neg hlh2] at h
                  simp only [Bool.or_eq_true, decide_eq_true_eq] at h
                  omega
            · simp only [if_neg he] at h
              rw [if_neg hfull, if_neg hlin] at h
              simp only [Bool.or_eq_true, decide_eq_true_eq] at h
              omega

/-- Witness for C7 at a concrete wrap state and range. -/
theorem add_range_monotone_w :
    in_range ⟨8, 0xF0, 0x10, 0, 0xFFFFFF00, 0⟩ 0xFA = true :=
  add_range_monotone ⟨8, 0xF0, 0x10, 0, 0xFFFFFF00, 0⟩ 0xF8 0x08 0xFA (by decide)
    (by decide) (by decide)

/-- Most significant position `i < bw` at which `w` disagrees with `bits`
while `fixed` pins the bit: the position found by the top-down disagreement
loops of `init_fixed`. -/
def findTopFD (fixed bits w bw : Nat) : Option Nat :=
  (List.range bw).foldl
    (fun acc i => if fixed.testBit i = true ∧ ¬ (bits.testBit i = w.testBit i) then some i else acc)
    none

/-- Rewrite bits `0..n-1` of `v` to `f j` (the low-bit rewrite loops of
`init_fixed`). -/
def lowReplace (v : Nat) (f : Nat → Bool) (n : Nat) : Nat :=
  (List.range n).foldl (fun a j => setB a j (f j)) v

/-- Index of the highest set bit of `v` among positions `0..n-1`
(0 when none is set). -/
def msbIdx (v n : Nat) : Nat :=
  (List.range n).foldl (fun a j => if v.testBit j then j else a) 0

/-- Number of set bits among the `n` physical positions of `v`
(`get_num_1bits` summed over the words). -/
def countOnes (v n : Nat) : Nat :=
  (List.range n).countP (fun i => v.testBit i)

/-- `is_power_of2(src)`: exactly one set bit over the words. -/
def is_power_of2 (s : Val) (v : Nat) : Bool :=
  countOnes v (totalBits s.bw) == 1

/-- The `set_fixed_bit` helper of `init_fixed` acting on the pair
`(fixed, eval)`: refuses to overwrite an already fixed bit. -/
def pinBit (fe : Nat × Nat) (i : Nat) (b : Bool) : Nat × Nat :=
  if fe.1.testBit i then fe else (setB fe.1 i true, setB fe.2 i b)

/-- Step 1 of `init_fixed`: tighten `lo` at the most significant fixed-bit
disagreement. -/
def if_lo (s : Val) : Nat :=
  match findTopFD s.fixed s.bits s.lo s.bw with
  | none => s.lo
  | some i =>
    if s.bits.testBit i then
      lowReplace (setB s.lo i true) (fun j => s.fixed.testBit j && s.bits.testBit j) i
    else lowReplace s.lo (fun j => s.fixed.testBit j && s.bits.testBit j) s.bw

/-- Step 2 of `init_fixed`: tighten `hi` through `hi1 = hi - 1`. -/
def if_hi (s : Val) : Nat :=
  match findTopFD s.fixed s.bits (sub1 s.bw s.hi) s.bw with
  | none => s.hi
  | some i =>
    ((if (sub1 s.bw s.hi).testBit i then
        lowReplace (setB (sub1 s.bw s.hi) i false)
          (fun j => !s.fixed.testBit j || s.bits.testBit j) i
      else lowReplace (sub1 s.bw s.hi)
          (fun j => s.fixed.testBit j && s.bits.testBit j) s.bw) + 1) % 2 ^ s.bw

/-- Step 3 of `init_fixed` on `(fixed, eval)`: when `lo < hi`, pin the bits
above the top set bit of `hi` to 0, and the top bit as well when `hi` is a
power of two. -/
def if_fe1 (s : Val) (lo2 hi2 : Nat) : Nat × Nat :=
  if lo2 < hi2 then
    (let fe3 := ((List.range (s.bw - (msbIdx hi2 s.bw + 1))).map (fun t => s.bw - 1 - t)).foldl
        (fun fe i => pinBit fe i false) (s.fixed, s.eval)
     if countOnes hi2 (totalBits s.bw) = 1 then pinBit fe3 (msbIdx hi2 s.bw) false else fe3)
  else (s.fixed, s.eval)

/-- Step 4 of `init_fixed`: when `hi = lo + 1`, pin every bit to `lo`. -/
def if_fe2 (s : Val) (lo2 hi2 : Nat) (fe : Nat × Nat) : Nat × Nat :=
  if (lo2 + 1) % 2 ^ s.bw = hi2 then
    (List.range s.bw).foldl (fun fe i => pinBit fe i (lo2.testBit i)) fe
  else fe

/-- `sls_valuation::init_fixed()`: tighten `lo` and `hi` against the fixed
bits (top-down disagreement search), then pin the leading zero bits forced by
`hi` when `lo < hi` (plus the top bit when `hi` is a power of two), and pin
every bit to `lo` when `hi = lo + 1`. -/
def init_fixed (s : Val) : Val :=
  if s.lo = s.hi then s
  else
    ⟨s.bw, if_lo s, if_hi s, s.bits,
      (if_fe2 s (if_lo s) (if_hi s) (if_fe1 s (if_lo s) (if_hi s))).1,
      (if_fe2 s (if_lo s) (if_hi s) (if_fe1 s (if_lo s) (if_hi s))).2⟩

/-- C5, counterexample: from a fresh width-8 valuation, `add_range(0x42,0x43)`
followed by `init_fixed()` leaves the committed assignment `bits` at `0`, not
`0x42`: both operations write the working copy `eval`, and `bits` changes only
on `commit_eval`. -/
theorem init_fixed_single_value_bits_ce :
    (init_fixed (add_range (fresh 8) 0x42 0x43)).bits = 0 ∧
    ¬ (init_fixed (add_range (fresh 8) 0x42 0x43)).bits = 0x42 := by decide

/-- C5, amended: from a fresh width-8 valuation, `add_range(0x42,0x43)` then
`init_fixed()` pins every bit (`fixed = 0xFF` on the low 8 positions) and
forces the working assignment to `eval = 0x42`; the committed `bits` becomes
`0x42` only after `commit_eval()`. -/
theorem init_fixed_single_value :
    (init_fixed (add_range (fresh 8) 0x42 0x43)).fixed % 2 ^ 8 = 0xFF ∧
    (init_fixed (add_range (fresh 8) 0x42 0x43)).eval = 0x42 ∧
    (commit_eval (init_fixed (add_range (fresh 8) 0x42 0x43))).bits = 0x42 := by decide

/-- The inner rescue scan of `to_nat`: is any of the `cnt` bits starting at
position `i` set? -/
def hasBitGE (d i cnt : Nat) : Bool :=
  (List.range cnt).any (fun j => d.testBit (i + j))

/-- The loop of `to_nat`, with `fuel = bw - i` remaining iterations; `p` and
`value` are 32-bit unsigned, hence the `% 2^32`. -/
def toNatAux (d maxN : Nat) : Nat → Nat → Nat → Nat → Nat
  | 0, _, _, v => v
  | fuel + 1, i, p, v =>
    if maxN ≤ p then (if hasBitGE d i (fuel + 1) then maxN else v)
    else toNatAux d maxN fuel (i + 1) (2 * p % 2 ^ 32) (if d.testBit i then (v + p) % 2 ^ 32 else v)

/-- `sls_valuation::to_nat(max_n)`: reduce `bits` to a bounded machine
integer. -/
def to_nat (s : Val) (maxN : Nat) : Nat := toNatAux s.bits maxN s.bw 0 1 0

/-- A number below `2^n` with no set bit below `n` is zero. -/
theorem eq_zero_of_no_low_bits {x n : Nat} (hx : x < 2 ^ n)
    (h : ∀ j, j < n → x.testBit j = false) : x = 0 := by
  apply Nat.eq_of_testBit_eq
  intro j
  rw [Nat.zero_testBit]
  by_cases hj : j < n
  · exact h j hj
  · exact Nat.testBit_lt_two_pow (lt_of_lt_of_le hx (Nat.pow_le_pow_right (by omega) (by omega)))

/-- Loop invariant computation for `to_nat`: starting at bit `i` with
`p = 2^i`, `value = d % 2^i` and no earlier trigger, the loop returns `d` when
`d < 2^⌈log2 maxN⌉` and `maxN` otherwise. -/
theorem toNatAux_eq (d bw maxN : Nat) (hd : d < 2 ^ bw) (hM : maxN < 2 ^ 31) :
    ∀ fuel i, fuel + i = bw → (∀ j, j < i → 2 ^ j < maxN) →
    toNatAux d maxN fuel i (2 ^ i) (d % 2 ^ i) =
      if d < 2 ^ Nat.clog 2 maxN then d else maxN := by
  intro fuel
  induction fuel with
  | zero =>
    intro i hi hpre
    have hib : i = bw := by omega
    subst hib
    simp only [toNatAux, Nat.mod_eq_of_lt hd]
    by_cases hb : i = 0
    · subst hb
      have hd0 : d = 0 := by omega
      rw [if_pos (by rw [hd0]; exact Nat.pos_pow_of_pos _ (by omega))]
    · have h1 : 2 ^ (i - 1) < maxN := hpre (i - 1) (by omega)
      have h2 : i - 1 < Nat.clog 2 maxN := (Nat.pow_lt_iff_lt_clog (by omega)).mp h1
      have h3 : d < 2 ^ Nat.clog 2 maxN :=
        lt_of_lt_of_le hd (Nat.pow_le_pow_right (by omega) (by omega))
      rw [if_pos h3]
  | succ fuel ih =>
    intro i hi hpre
    simp only [toNatAux]
    by_cases htrig : maxN ≤ 2 ^ i
    · rw [if_pos htrig]
      have hclog_le : Nat.clog 2 maxN ≤ i := (Nat.le_pow_iff_clog_le (by omega)).mp htrig
      have hclog_ge : i ≤ Nat.clog 2 maxN := by
        by_cases hz : i = 0
        · omega
        · have := (Nat.pow_lt_iff_lt_clog (by omega)).mp (hpre (i - 1) (by omega))
          omega
      have hclog : Nat.clog 2 maxN = i := by omega
      by_cases hdlt : d < 2 ^ i
      · have hbits : hasBitGE d i (fuel + 1) = false := by
          unfold hasBitGE
          rw [List.any_eq_false]
          intro j hj
          simp only [Bool.not_eq_true]
          exact Nat.testBit_lt_two_pow
            (lt_of_lt_of_le hdlt (Nat.pow_le_pow_right (by omega) (by omega)))
        rw [hbits]
        simp only [Bool.false_eq_true, if_false]
        rw [Nat.mod_eq_of_lt hdlt, hclog, if_pos hdlt]
      · have hbits : hasBitGE d i (fuel + 1) = true := by
          unfold hasBitGE
          rw [List.any_eq_true]
          have hne : d >>> i ≠ 0 := by
            rw [Nat.shiftRight_eq_div_pow]
            have h1 : 2 ^ i ≤ d := by omega
            have h2 : 1 ≤ d / 2 ^ i :=
              (Nat.one_le_div_iff (Nat.pos_pow_of_pos _ (by omega))).mpr h1
            omega
          have hlt : d >>> i < 2 ^ (fuel + 1) := by
            rw [Nat.shiftRight_eq_div_pow]
            apply Nat.div_lt_of_lt_mul
            rw [← Nat.pow_add]
            have hib : i + (fuel + 1) = bw := by omega
            rw [hib]
            exact hd
          obtain ⟨j, hj1, hj2⟩ : ∃ j, j < fuel + 1 ∧ (d >>> i).testBit j = true := by
            by_contra hc
            push_neg at hc
            have : d >>> i = 0 := by
              apply eq_zero_of_no_low_bits hlt
              intro j hj
              have := hc j hj
              simpa using this
            exact hne this
          refine ⟨j, List.mem_range.mpr hj1, ?_⟩
          rw [Nat.testBit_shiftRight] at hj2
          exact hj2
        rw [hbits]
        simp only [if_true]
        rw [hclog, if_neg hdlt]
    · rw [if_neg htrig]
      have hilt : i < 31 := by
        by_contra hc
        push_neg at hc
        have : (2 : Nat) ^ 31 ≤ 2 ^ i := Nat.pow_le_pow_right (by omega) hc
        omega
      have hlt32 : 2 * 2 ^ i < 2 ^ 32 := by
        have h1 : (2 : Nat) ^ i < 2 ^ 31 := Nat.pow_lt_pow_right (by omega) hilt
        have h2 : (2 : Nat) ^ 32 = 2 * 2 ^ 31 := by norm_num
        omega
      have hp' : 2 * 2 ^ i % 2 ^ 32 = 2 ^ (i + 1) := by
        rw [Nat.mod_eq_of_lt hlt32, Nat.pow_succ]
        ring
      have hv' : (if d.testBit i then (d % 2 ^ i + 2 ^ i) % 2 ^ 32 else d % 2 ^ i) =
          d % 2 ^ (i + 1) := by
        have hmm : d % 2 ^ (i + 1) = d % 2 ^ i + 2 ^ i * (d / 2 ^ i % 2) := by
          rw [Nat.pow_succ]
          exact Nat.mod_mul
        by_cases hb : d.testBit i
        · rw [if_pos hb]
          rw [Nat.testBit_to_div_mod, decide_eq_true_eq] at hb
          rw [hmm, hb, Nat.mul_one]
          apply Nat.mod_eq_of_lt
          have h1 : d % 2 ^ i < 2 ^ i := Nat.mod_lt _ (Nat.pos_pow_of_pos _ (by omega))
          have h2 : 2 ^ i + 2 ^ i ≤ 2 ^ 32 := by
            have : (2 : Nat) ^ i < 2 ^ 31 := Nat.pow_lt_pow_right (by omega) hilt
            have h32 : (2 : Nat) ^ 32 = 2 ^ 31 * 2 := by norm_num
            omega
          omega
        · rw [if_neg hb]
          rw [Nat.testBit_to_div_mod] at hb
          have : d / 2 ^ i % 2 = 0 := by
            have h2 : d / 2 ^ i % 2 < 2 := Nat.mod_lt _ (by omega)
            simp only [decide_eq_true_eq] at hb
            omega
          rw [hmm, this, Nat.mul_zero, Nat.add_zero]
      rw [hp', hv']
      exact ih (i + 1) (by omega) (by
        intro j hj
        by_cases hji : j < i
        · exact hpre j hji
        · have : j = i := by omega
          subst this
          omega)

/-- C6, counterexample: with `bits = 7` (width 8) and `M = 5 < UINT_MAX/2`,
`to_nat(5)` returns `7`, not `min(7, 5) = 5`: the early-exit scan only
saturates once `p = 2^i` reaches `M`, so values strictly between `M` and the
next power of two are returned unclamped. -/
theorem to_nat_saturation_ce :
    to_nat ⟨8, 0, 0, 7, 0xFFFFFF00, 0⟩ 5 = 7 ∧
    ¬ (to_nat ⟨8, 0, 0, 7, 0xFFFFFF00, 0⟩ 5 = min 7 5) := by decide

/-- C6, amended: for `M < UINT_MAX/2`, `to_nat(M)` returns `value(bits)` when
`value(bits) < 2^⌈log2 M⌉`, and `M` otherwise; this coincides with
`min(value(bits), M)` exactly when `M` is a power of two (or no value falls in
the gap `(M, 2^⌈log2 M⌉)`). -/
theorem to_nat_characterization (s : Val) (maxN : Nat) (hd : s.bits < 2 ^ s.bw)
    (hM : maxN < 2 ^ 31) :
    to_nat s maxN = if s.bits < 2 ^ Nat.clog 2 maxN then s.bits else maxN := by
  unfold to_nat
  have h := toNatAux_eq s.bits s.bw maxN hd hM s.bw 0 (by omega) (by omega)
  have e2 : s.bits % 2 ^ 0 = 0 := by simp [Nat.mod_one]
  rw [e2] at h
  exact h

/-- Witness for C6's amended characterization at `bits = 7`, `M = 5`. -/
theorem to_nat_characterization_w :
    to_nat ⟨8, 0, 0, 7, 0xFFFFFF00, 0⟩ 5 =
      if (7 : Nat) < 2 ^ Nat.clog 2 5 then 7 else 5 :=
  to_nat_characterization ⟨8, 0, 0, 7, 0xFFFFFF00, 0⟩ 5 (by decide) (by decide)

/-- `sls_valuation::set_random_below(dst, r)`: pick (by reservoir sampling
over the random source) one free set bit of `dst`, clear it, and randomize
every free bit below it.  The random source is a stream `r` read at
successive indices starting from `k`; the pair returned is the new value and
the next unread index. -/
def set_random_below (s : Val) (dst : Nat) (r : Nat → Nat) (k : Nat) : Nat × Nat :=
  if dst = 0 then (dst, k)
  else
    let acc := (List.range s.bw).foldl
      (fun (a : Nat × Option Nat × Nat) i =>
        if dst.testBit i = true ∧ s.fixed.testBit i = false then
          (if r a.2.2 % (a.1 + 1) = 0 then (a.1 + 1, some i, a.2.2 + 1)
           else (a.1 + 1, a.2.1, a.2.2 + 1))
        else a)
      (0, none, k)
    match acc.2.1 with
    | none => (dst, acc.2.2)
    | some idx =>
      (List.range idx).foldl
        (fun (a : Nat × Nat) i =>
          if s.fixed.testBit i = false then (setB a.1 i (decide (r a.2 % 2 = 0)), a.2 + 1)
          else a)
        (setB dst idx false, acc.2.2)

/-- A fold preserves any invariant its step preserves. -/
theorem foldl_inv {α : Type} {P : α → Prop} {f : α → Nat → α} :
    ∀ (l : List Nat) (a : α), P a → (∀ b i, i ∈ l → P b → P (f b i)) →
      P (l.foldl f a)
  | [], _, h, _ => h
  | i :: l, a, h, hstep =>
    foldl_inv l (f a i) (hstep a i (List.mem_cons_self i l) h)
      (fun b j hj hb => hstep b j (List.mem_cons_of_mem i hj) hb)

/-- Bit `j` of `setB v i b`. -/
theorem setB_testBit (v i : Nat) (b : Bool) (j : Nat) :
    (setB v i b).testBit j = if j = i then b else v.testBit j := by
  unfold setB
  by_cases h : v.testBit i = b
  · rw [if_pos h]
    by_cases hj : j = i
    · subst hj; rw [if_pos rfl, h]
    · rw [if_neg hj]
  · rw [if_neg h]
    rw [Nat.testBit_xor, Nat.testBit_two_pow]
    by_cases hj : j = i
    · subst hj
      rw [if_pos rfl, decide_eq_true rfl]
      cases hb : v.testBit j
      · cases b
        · rw [hb] at h; exact absurd rfl h
        · rfl
      · cases b
        · rfl
        · rw [hb] at h; exact absurd rfl h
    · rw [if_neg hj, decide_eq_false (fun hc => hj hc.symm), Bool.xor_false]

/-- Writing a bit below `n` does not change the bits from `n` upward. -/
theorem setB_shiftRight {i n : Nat} (v : Nat) (b : Bool) (h : i < n) :
    setB v i b >>> n = v >>> n := by
  apply Nat.eq_of_testBit_eq
  intro j
  rw [Nat.testBit_shiftRight, Nat.testBit_shiftRight, setB_testBit, if_neg (by omega)]

/-- Writing a bit below `n` preserves being `< 2^n`. -/
theorem setB_lt {v i n : Nat} (hv : v < 2 ^ n) (hi : i < n) (b : Bool) :
    setB v i b < 2 ^ n := by
  unfold setB
  by_cases h : v.testBit i = b
  · rw [if_pos h]; exact hv
  · rw [if_neg h]
    exact Nat.xor_lt_two_pow hv (Nat.pow_lt_pow_right (by omega) hi)

/-- C10: `set_random_below` never increases the value, preserves every fixed
bit, and leaves `dst` unchanged when `dst = 0` or when no set bit of `dst` is
free. -/
theorem set_random_below_spec (s : Val) (dst : Nat) (r : Nat → Nat) (k : Nat) :
    (set_random_below s dst r k).1 ≤ dst ∧
    (∀ j, s.fixed.testBit j = true →
      (set_random_below s dst r k).1.testBit j = dst.testBit j) ∧
    (dst = 0 → (set_random_below s dst r k).1 = dst) ∧
    ((∀ i, dst.testBit i = true → s.fixed.testBit i = true) →
      (set_random_below s dst r k).1 = dst) := by
  unfold set_random_below
  by_cases hz : dst = 0
  · rw [if_pos hz]
    exact ⟨Nat.le_refl _, fun j _ => rfl, fun _ => rfl, fun _ => rfl⟩
  · rw [if_neg hz]
    simp only
    set step := fun (a : Nat × Option Nat × Nat) i =>
        if dst.testBit i = true ∧ s.fixed.testBit i = false then
          (if r a.2.2 % (a.1 + 1) = 0 then (a.1 + 1, some i, a.2.2 + 1)
           else (a.1 + 1, a.2.1, a.2.2 + 1))
        else a
      with hstep
    set acc := (List.range s.bw).foldl step (0, none, k) with hacc
    have hidx : acc.2.1 = none ∨
        ∃ i, acc.2.1 = some i ∧ dst.testBit i = true ∧ s.fixed.testBit i = false := by
      rw [hacc]
      apply foldl_inv (P := fun (a : Nat × Option Nat × Nat) => a.2.1 = none ∨
        ∃ i, a.2.1 = some i ∧ dst.testBit i = true ∧ s.fixed.testBit i = false)
      · exact Or.inl rfl
      · intro b i _ hb
        rw [hstep]
        by_cases hc : dst.testBit i = true ∧ s.fixed.testBit i = false
        · simp only [if_pos hc]
          by_cases hr : r b.2.2 % (b.1 + 1) = 0
          · simp only [if_pos hr]
            exact Or.inr ⟨i, rfl, hc.1, hc.2⟩
          · simp only [if_neg hr]
            exact hb
        · simp only [if_neg hc]
          exact hb
    cases hm : acc.2.1 with
    | none =>
      exact ⟨Nat.le_refl _, fun j _ => rfl, fun h => absurd h hz, fun _ => rfl⟩
    | some idx =>
      have hprop : dst.testBit idx = true ∧ s.fixed.testBit idx = false := by
        rcases hidx with h | ⟨i, hi1, hi2, hi3⟩
        · rw [hm] at h; cases h
        · rw [hm] at hi1
          cases hi1
          exact ⟨hi2, hi3⟩
      set D := setB dst idx false with hD
      set step2 := fun (a : Nat × Nat) i =>
          if s.fixed.testBit i = false then (setB a.1 i (decide (r a.2 % 2 = 0)), a.2 + 1)
          else a
        with hstep2
      have hfold : ∀ (a : Nat × Nat), a.1 >>> idx = D >>> idx ∧
          (∀ j, s.fixed.testBit j = true → a.1.testBit j = D.testBit j) →
          ((List.range idx).foldl step2 a).1 >>> idx = D >>> idx ∧
          (∀ j, s.fixed.testBit j = true →
            ((List.range idx).foldl step2 a).1.testBit j = D.testBit j) := by
        intro a ha
        apply foldl_inv (P := fun (a : Nat × Nat) => a.1 >>> idx = D >>> idx ∧
          ∀ j, s.fixed.testBit j = true → a.1.testBit j = D.testBit j)
        · exact ha
        · intro b i hi hb
          rw [hstep2]
          by_cases hc : s.fixed.testBit i = false
          · simp only [if_pos hc]
            have hilt : i < idx := List.mem_range.mp hi
            constructor
            · rw [setB_shiftRight _ _ hilt, hb.1]
            · intro j hj
              rw [setB_testBit, if_neg (by
                intro hji
                subst hji
                rw [hj] at hc
                cases hc), hb.2 j hj]
          · simp only [if_neg hc]
            exact hb
      have hres := hfold (D, acc.2.2) ⟨rfl, fun j _ => rfl⟩
      set f := ((List.range idx).foldl step2 (D, acc.2.2)).1 with hf
      have hflt : f < dst := by
        apply Nat.lt_of_testBit idx
        · have := congrArg (fun x => x.testBit 0) hres.1
          simp only [Nat.testBit_shiftRight, Nat.add_zero] at this
          rw [this, hD, setB_testBit, if_pos rfl]
        · exact hprop.1
        · intro j hj
          have := congrArg (fun x => x.testBit (j - idx)) hres.1
          simp only [Nat.testBit_shiftRight] at this
          rw [Nat.add_sub_cancel' (by omega : idx ≤ j)] at this
          rw [this, hD, setB_testBit, if_neg (by omega)]
      refine ⟨Nat.le_of_lt hflt, ?_, fun h => absurd h hz, ?_⟩
      · intro j hj
        rw [hres.2 j hj, hD, setB_testBit]
        by_cases hji : j = idx
        · subst hji
          rw [hj] at hprop
          exact absurd hprop.2 (by simp)
        · rw [if_neg hji]
      · intro h
        have := h idx hprop.1
        rw [this] at hprop
        exact absurd hprop.2 (by simp)

/-- Witness for C10's unchanged-at-zero case. -/
theorem set_random_below_spec_w :
    (set_random_below ⟨8, 0, 0, 0, 0xFFFFFF00, 0⟩ 0 (fun _ => 0) 0).1 = 0 :=
  (set_random_below_spec ⟨8, 0, 0, 0, 0xFFFFFF00, 0⟩ 0 (fun _ => 0) 0).2.2.1 rfl

/-- Phase A initialisation of `get_at_least`:
`dst := (src & ~fixed) | (fixed & bits)`. -/
def gal_dst0 (s : Val) (src : Nat) : Nat :=
  (compl (totalBits s.bw) s.fixed &&& src) ||| (s.fixed &&& s.bits)

/-- Phase A adjustment of `get_at_least`: if some word has a bit where
`dst = 1, src = 0`, take the highest such bit `idx` of the most significant
such word `i`, keep word `i` only where `fixed` or at `idx`
(`dst[i] &= fixed[i] | (1 << idx)`), keep the lower words only where `fixed`
(`dst[j] &= fixed[j]`), and leave the upper words unchanged. -/
def gal_adjust (s : Val) (src : Nat) : Nat :=
  match topNonzeroWord (gal_dst0 s src &&& compl (totalBits s.bw) src) (numWords s.bw) with
  | none => gal_dst0 s src
  | some i =>
    ((gal_dst0 s src >>> (32 * (i + 1))) <<< (32 * (i + 1))) |||
      ((wordOf (gal_dst0 s src) i &&&
          (wordOf s.fixed i |||
            2 ^ wlog2 (wordOf (gal_dst0 s src &&& compl (totalBits s.bw) src) i))) <<< (32 * i)) |||
      ((gal_dst0 s src &&& s.fixed) % 2 ^ (32 * i))

/-- `sls_valuation::get_at_least(src, dst)`: phase A (fixed bits), then
`round_up`. -/
def get_at_least (s : Val) (src : Nat) : Option Nat :=
  round_up s (gal_adjust s src)

/-- `bw ≤ 32 * ceil(bw/32)`. -/
theorem le_totalBits (bw : Nat) : bw ≤ totalBits bw := by
  unfold totalBits numWords
  have h1 := Nat.div_add_mod (bw + 31) 32
  have h2 : (bw + 31) % 32 < 32 := Nat.mod_lt _ (by omega)
  omega

/-- Bits of the constructor's `fixed` vector `2^tb - 2^bw`. -/
theorem fx_testBit {bw : Nat} (tb : Nat) (h : bw ≤ tb) (i : Nat) :
    (2 ^ tb - 2 ^ bw).testBit i = (decide (bw ≤ i) && decide (i < tb)) := by
  have he : 2 ^ tb - 2 ^ bw = (2 ^ (tb - bw) - 1) <<< bw := by
    rw [Nat.shiftLeft_eq, Nat.sub_mul, ← Nat.pow_add, Nat.one_mul]
    congr 2
    omega
  rw [he, Nat.testBit_shiftLeft, Nat.testBit_two_pow_sub_one]
  by_cases h1 : bw ≤ i
  · by_cases h2 : i < tb
    · have h3 : i - bw < tb - bw := by omega
      simp [h1, h2, h3]
    · have h3 : ¬ i - bw < tb - bw := by omega
      simp [h1, h2, h3]
  · simp [h1]

/-- Complement of the constructor's `fixed` vector: the low `bw` bits. -/
theorem compl_fx (bw : Nat) :
    compl (totalBits bw) (2 ^ totalBits bw - 2 ^ bw) = 2 ^ bw - 1 := by
  apply Nat.eq_of_testBit_eq
  intro i
  unfold compl
  rw [Nat.testBit_xor, Nat.testBit_two_pow_sub_one, Nat.testBit_two_pow_sub_one,
    fx_testBit _ (le_totalBits bw)]
  have htb := le_totalBits bw
  by_cases h1 : i < bw
  · have h2 : i < totalBits bw := by omega
    have h3 : ¬ bw ≤ i := by omega
    simp [h1, h2, h3]
  · have h3 : bw ≤ i := by omega
    by_cases h2 : i < totalBits bw
    · simp [h1, h2, h3]
    · simp [h1, h2, h3]

/-- A value below `2^bw` is disjoint from the constructor's `fixed`
vector. -/
theorem and_fx_eq_zero {bw v : Nat} (hv : v < 2 ^ bw) :
    v &&& (2 ^ totalBits bw - 2 ^ bw) = 0 := by
  apply Nat.eq_of_testBit_eq
  intro i
  rw [Nat.zero_testBit, Nat.testBit_and, fx_testBit _ (le_totalBits bw)]
  by_cases h1 : bw ≤ i
  · have : v.testBit i = false :=
      Nat.testBit_lt_two_pow (lt_of_lt_of_le hv (Nat.pow_le_pow_right (by omega) h1))
    rw [this, Bool.false_and]
  · rw [decide_eq_false h1, Bool.false_and, Bool.and_false]

/-- A value is disjoint from its own complement. -/
theorem and_compl_self {n v : Nat} (hv : v < 2 ^ n) : v &&& compl n v = 0 := by
  apply Nat.eq_of_testBit_eq
  intro i
  rw [Nat.zero_testBit, Nat.testBit_and]
  unfold compl
  rw [Nat.testBit_xor, Nat.testBit_two_pow_sub_one]
  cases hb : v.testBit i
  · rw [Bool.false_and]
  · have : i < n := by
      by_contra hc
      push_neg at hc
      rw [Nat.testBit_lt_two_pow
        (lt_of_lt_of_le hv (Nat.pow_le_pow_right (by omega) hc))] at hb
      cases hb
    rw [decide_eq_true this]
    rfl

/-- On the zero vector the top-word scan finds nothing. -/
theorem topNonzeroWord_zero (nw : Nat) : topNonzeroWord 0 nw = none := by
  unfold topNonzeroWord
  apply foldl_inv (P := fun a => a = none)
  · rfl
  · intro b i _ hb
    have : wordOf 0 i = 0 := by
      unfold wordOf
      rw [Nat.zero_shiftRight, Nat.zero_mod]
    rw [if_neg (by simp [this])]
    exact hb

/-- C3, counterexample: with width 4, full interval, bit 1 fixed to 1
(`fixed = ~mask | 0b0010`, `bits = 0b0010`) and `src = 5`, `get_at_least`
returns `2`: the word adjustment `dst[i] &= fixed[i] | (1 << idx)` also
clears the set bits of `dst` *above* `idx` that agree with `src`, so the
result is not the smallest feasible value `≥ src` (it is not even `≥ src`,
although the feasible value `6 ≥ 5` exists). -/
theorem get_at_least_ce :
    get_at_least ⟨4, 0, 0, 2, 2 ^ 32 - 16 + 2, 2⟩ 5 = some 2 ∧
    ¬ (5 : Nat) ≤ 2 ∧
    can_set ⟨4, 0, 0, 2, 2 ^ 32 - 16 + 2, 2⟩ 6 = true ∧ (5 : Nat) ≤ 6 := by decide

/-- C3, amended: when no bit is fixed (`fixed` holds only the constructor's
overflow-bit pattern), `get_at_least(src)` fails exactly when no feasible value
`≥ src` exists, and otherwise returns the smallest feasible value `≥ src`. -/
theorem get_at_least_minimal (s : Val) (src : Nat)
    (hfx : s.fixed = 2 ^ totalBits s.bw - 2 ^ s.bw)
    (hlo : s.lo < 2 ^ s.bw) (hhi : s.hi < 2 ^ s.bw) (hbits : s.bits < 2 ^ s.bw)
    (hsrc : src < 2 ^ s.bw) :
    (get_at_least s src = none → ∀ v, v < 2 ^ s.bw → can_set s v = true → v < src) ∧
    (∀ d, get_at_least s src = some d →
      src ≤ d ∧ d < 2 ^ s.bw ∧ can_set s d = true ∧
      ∀ v, v < 2 ^ s.bw → can_set s v = true → src ≤ v → d ≤ v) := by
  have hdst0 : gal_dst0 s src = src := by
    unfold gal_dst0
    rw [hfx, compl_fx, Nat.and_comm, Nat.and_pow_two_sub_one_of_lt_two_pow hsrc,
      Nat.and_comm, and_fx_eq_zero hbits, Nat.or_zero]
  have hadj : gal_adjust s src = src := by
    unfold gal_adjust
    rw [hdst0, and_compl_self (lt_of_lt_of_le hsrc
      (Nat.pow_le_pow_right (by omega) (le_totalBits s.bw))), topNonzeroWord_zero]
  have hred : get_at_least s src = round_up s src := by
    unfold get_at_least
    rw [hadj]
  -- with the constructor's fixed pattern, feasibility is just `in_range`
  have hcs : ∀ v, v < 2 ^ s.bw → can_set s v = in_range s v := by
    intro v hv
    unfold can_set
    rw [hfx, and_fx_eq_zero (Nat.xor_lt_two_pow hv hbits)]
    simp
  rw [hred]
  unfold round_up
  by_cases hlin : s.lo < s.hi
  · rw [if_pos hlin]
    by_cases h1 : s.hi ≤ src
    · rw [if_pos h1]
      refine ⟨fun _ v hv hfeas => ?_, fun d hd => Option.noConfusion hd⟩
      rw [hcs v hv] at hfeas
      unfold in_range at hfeas
      rw [if_neg (by omega), if_pos hlin] at hfeas
      simp only [Bool.and_eq_true, decide_eq_true_eq] at hfeas
      omega
    · rw [if_neg h1]
      by_cases h2 : src < s.lo
      · rw [if_pos h2]
        refine ⟨fun hc => Option.noConfusion hc, fun d hd => ?_⟩
        have hdlo : d = s.lo := by simpa using hd.symm
        subst hdlo
        refine ⟨by omega, hlo, ?_, ?_⟩
        · rw [hcs _ hlo]
          unfold in_range
          rw [if_neg (by omega), if_pos hlin]
          simp only [Bool.and_eq_true, decide_eq_true_eq]
          omega
        · intro v hv hfeas _
          rw [hcs v hv] at hfeas
          unfold in_range at hfeas
          rw [if_neg (by omega), if_pos hlin] at hfeas
          simp only [Bool.and_eq_true, decide_eq_true_eq] at hfeas
          omega
      · rw [if_neg h2]
        refine ⟨fun hc => Option.noConfusion hc, fun d hd => ?_⟩
        have hds : d = src := by simpa using hd.symm
        subst hds
        refine ⟨Nat.le_refl _, hsrc, ?_, fun v _ _ hge => hge⟩
        rw [hcs _ hsrc]
        unfold in_range
        rw [if_neg (by omega), if_pos hlin]
        simp only [Bool.and_eq_true, decide_eq_true_eq]
        omega
  · rw [if_neg hlin]
    by_cases h1 : s.hi ≤ src ∧ src < s.lo
    · rw [if_pos h1]
      refine ⟨fun hc => Option.noConfusion hc, fun d hd => ?_⟩
      have hdlo : d = s.lo := by simpa using hd.symm
      subst hdlo
      refine ⟨by omega, hlo, ?_, ?_⟩
      · rw [hcs _ hlo]
        unfold in_range
        by_cases hfull : s.lo = s.hi
        · rw [if_pos hfull]
        · rw [if_neg hfull, if_neg hlin]
          simp only [Bool.or_eq_true, decide_eq_true_eq]
          omega
      · intro v hv hfeas hge
        rw [hcs v hv] at hfeas
        unfold in_range at hfeas
        by_cases hfull : s.lo = s.hi
        · omega
        · rw [if_neg hfull, if_neg hlin] at hfeas
          simp only [Bool.or_eq_true, decide_eq_true_eq] at hfeas
          omega
    · rw [if_neg h1]
      refine ⟨fun hc => Option.noConfusion hc, fun d hd => ?_⟩
      have hds : d = src := by simpa using hd.symm
      subst hds
      refine ⟨Nat.le_refl _, hsrc, ?_, fun v _ _ hge => hge⟩
      rw [hcs _ hsrc]
      unfold in_range
      by_cases hfull : s.lo = s.hi
      · rw [if_pos hfull]
      · rw [if_neg hfull, if_neg hlin]
        simp only [Bool.or_eq_true, decide_eq_true_eq]
        omega

/-- Witness for C3's amended minimality at a fresh width-4 state. -/
theorem get_at_least_minimal_w :
    (get_at_least (fresh 4) 5 = none →
      ∀ v, v < 2 ^ (fresh 4).bw → can_set (fresh 4) v = true → v < 5) ∧
    (∀ d, get_at_least (fresh 4) 5 = some d →
      5 ≤ d ∧ d < 2 ^ (fresh 4).bw ∧ can_set (fresh 4) d = true ∧
      ∀ v, v < 2 ^ (fresh 4).bw → can_set (fresh 4) v = true → 5 ≤ v → d ≤ v) :=
  get_at_least_minimal (fresh 4) 5 (by decide) (by decide) (by decide) (by decide) (by decide)

/-- Phase A initialisation of `get_at_most`:
`dst := src & (~fixed | bits)`. -/
def gam_dst0 (s : Val) (src : Nat) : Nat :=
  src &&& (compl (totalBits s.bw) s.fixed ||| s.bits)

/-- Phase A adjustment of `get_at_most`: at the highest bit `idx` of the most
significant word `i` where `src = 1, dst = 0`, fill word `i` below `idx` with
`~fixed` (`dst[i] |= ~fixed[i] & ((1 << idx) - 1)`) and replace the lower
words by `~fixed | bits`. -/
def gam_adjust (s : Val) (src : Nat) : Nat :=
  match topNonzeroWord (compl (totalBits s.bw) (gam_dst0 s src) &&& src) (numWords s.bw) with
  | none => gam_dst0 s src
  | some i =>
    ((gam_dst0 s src >>> (32 * i)) <<< (32 * i)) |||
      (compl (totalBits s.bw) s.fixed &&&
        ((2 ^ wlog2 (wordOf (compl (totalBits s.bw) (gam_dst0 s src) &&& src) i) - 1) <<< (32 * i))) |||
      ((compl (totalBits s.bw) s.fixed ||| s.bits) % 2 ^ (32 * i))

/-- `sls_valuation::get_at_most(src, dst)`: phase A (fixed bits), then
`round_down`. -/
def get_at_most (s : Val) (src : Nat) : Option Nat :=
  round_down s (gam_adjust s src)

/-- `sls_valuation::random_bits(r)`: one 32-bit word built by XOR-ing four
byte-shifted draws. -/
def random_bits (r : Nat → Nat) (k : Nat) : Nat :=
  (r k ^^^ (r (k + 1) <<< 8) ^^^ (r (k + 2) <<< 16) ^^^ (r (k + 3) <<< 24)) % 2 ^ 32

/-- `sls_valuation::set_random_above(dst, r)`:
`dst[i] |= random_bits(r) & ~fixed[i]` for every word. -/
def set_random_above (s : Val) (dst : Nat) (r : Nat → Nat) (k : Nat) : Nat × Nat :=
  (List.range (numWords s.bw)).foldl
    (fun (a : Nat × Nat) i =>
      (a.1 ||| ((random_bits r a.2 &&& wordOf (compl (totalBits s.bw) s.fixed) i) <<< (32 * i)),
       a.2 + 4))
    (dst, k)

/-- Modelled from the spec: `try_set(dst)` (declared in the header only)
commits the candidate into the working copy `eval` when `can_set` allows it
("commit `tmp` and return", §4.3), and reports whether it did. -/
def try_set (s : Val) (t : Nat) : Bool × Val :=
  if can_set s t then (true, { s with eval := t }) else (false, s)

/-- `sls_valuation::set_random_at_most(src, tmp, r)`. -/
def set_random_at_most (s : Val) (src : Nat) (r : Nat → Nat) (k : Nat) : Bool × Val :=
  match get_at_most s src with
  | none => (false, s)
  | some tmp =>
    if tmp = 0 ∨ r k % 2 = 0 then try_set s tmp
    else
      let t2 := (set_random_below s tmp r (k + 1)).1
      if s.lo = s.hi ∨ s.lo = 0 ∨ s.lo ≤ t2 then try_set s t2
      else
        match get_at_most s src with
        | none => (false, s)
        | some t3 => try_set s t3

/-- `sls_valuation::set_random_at_least(src, tmp, r)`. -/
def set_random_at_least (s : Val) (src : Nat) (r : Nat → Nat) (k : Nat) : Bool × Val :=
  match get_at_least s src with
  | none => (false, s)
  | some tmp =>
    if tmp = 2 ^ s.bw - 1 ∨ r k % 2 = 0 then try_set s tmp
    else
      let t2 := (set_random_above s tmp r (k + 1)).1
      if s.lo = s.hi ∨ s.hi = 0 ∨ t2 < s.hi then try_set s t2
      else
        match get_at_least s src with
        | none => (false, s)
        | some t3 => try_set s t3

/-- The predicate overload of `round_down`: clear free set bits from the top
down until the predicate holds. -/
def round_down_pred (s : Val) (p : Nat → Bool) (dst : Nat) : Nat :=
  ((List.range s.bw).map (fun t => s.bw - 1 - t)).foldl
    (fun d i =>
      if p d then d
      else if s.fixed.testBit i = false ∧ d.testBit i = true then setB d i false else d)
    dst

/-- The predicate overload of `round_up`: set free clear bits from the bottom
up until the predicate holds. -/
def round_up_pred (s : Val) (p : Nat → Bool) (dst : Nat) : Nat :=
  (List.range s.bw).foldl
    (fun d i =>
      if p d then d
      else if s.fixed.testBit i = false ∧ d.testBit i = false then setB d i true else d)
    dst

/-- `sls_valuation::set_random_in_range(lo, hi, tmp, r)`. -/
def set_random_in_range (s : Val) (loQ hiQ : Nat) (r : Nat → Nat) (k : Nat) : Bool × Val :=
  if r k % 2 = 0 then
    match get_at_least s loQ with
    | none => (false, s)
    | some tmp =>
      if hiQ < tmp then (false, s)
      else if tmp = 2 ^ s.bw - 1 ∨ r (k + 1) % 2 = 0 then try_set s tmp
      else
        let t2 := (set_random_above s tmp r (k + 2)).1
        let t3 := round_down_pred s (fun t => decide (t ≤ hiQ) && in_range s t) t2
        if in_range s t3 = true ∧ loQ ≤ t3 ∧ t3 ≤ hiQ then try_set s t3
        else
          match get_at_least s loQ with
          | none => (false, s)
          | some t4 => if t4 ≤ hiQ then try_set s t4 else (false, s)
  else
    match get_at_most s hiQ with
    | none => (false, s)
    | some tmp =>
      if tmp < loQ then (false, s)
      else if tmp = 0 ∨ r (k + 1) % 2 = 0 then try_set s tmp
      else
        let t2 := (set_random_below s tmp r (k + 2)).1
        let t3 := round_up_pred s (fun t => decide (loQ ≤ t) && in_range s t) t2
        if in_range s t3 = true ∧ loQ ≤ t3 ∧ t3 ≤ hiQ then try_set s t3
        else
          match get_at_most s hiQ with
          | none => (false, s)
          | some t4 => if loQ ≤ t4 then try_set s t4 else (false, s)

/-- Well-formedness carried by every reachable valuation: positive width,
overflow-free `lo`, `hi`, `bits`, `eval`, and `fixed` holding all ones on the
physical positions `bw .. 32*nw - 1`. -/
def Inv (s : Val) : Prop :=
  1 ≤ s.bw ∧ s.lo < 2 ^ s.bw ∧ s.hi < 2 ^ s.bw ∧ s.bits < 2 ^ s.bw ∧
    s.eval < 2 ^ s.bw ∧ s.fixed >>> s.bw = 2 ^ (totalBits s.bw - s.bw) - 1

/-- The valuation states reachable through the interface of §4: construction
followed by any sequence of the mutating operations (interval intersection,
cross-tightening, repair, commit, randomized re-sampling, and the
externally driven pinning of a single bit). -/
inductive Reach : Val → Prop
  | fresh (bw : Nat) (h : 1 ≤ bw) : Reach (fresh bw)
  | add_range {s : Val} (l0 h0 : Nat) : Reach s → Reach (add_range s l0 h0)
  | init_fixed {s : Val} : Reach s → Reach (init_fixed s)
  | set_repair {s : Val} (td : Bool) (dst : Nat) : Reach s → Reach (set_repair s td dst).2
  | commit_eval {s : Val} : Reach s → Reach (commit_eval s)
  | set_random_at_most {s : Val} (src : Nat) (r : Nat → Nat) (k : Nat) :
      Reach s → Reach (set_random_at_most s src r k).2
  | set_random_at_least {s : Val} (src : Nat) (r : Nat → Nat) (k : Nat) :
      Reach s → Reach (set_random_at_least s src r k).2
  | set_random_in_range {s : Val} (loQ hiQ : Nat) (r : Nat → Nat) (k : Nat) :
      Reach s → Reach (set_random_in_range s loQ hiQ r k).2
  | pin {s : Val} (i : Nat) (b : Bool) (h : i < s.bw) :
      Reach s → Reach ⟨s.bw, s.lo, s.hi, setB s.bits i b, setB s.fixed i true, s.eval⟩

/-- A number with no set bit at positions `≥ n` is below `2^n`. -/
theorem lt_two_pow_of_high_false {x n : Nat} (h : ∀ i, n ≤ i → x.testBit i = false) :
    x < 2 ^ n := by
  have hx : x &&& 2 ^ n - 1 = x := by
    apply Nat.eq_of_testBit_eq
    intro i
    rw [Nat.testBit_and, Nat.testBit_two_pow_sub_one]
    by_cases hi : i < n
    · rw [decide_eq_true hi, Bool.and_true]
    · rw [h i (by omega), Bool.false_and]
  have hle : x &&& 2 ^ n - 1 ≤ 2 ^ n - 1 := Nat.and_le_right
  have hp : 0 < 2 ^ n := Nat.pos_pow_of_pos _ (by omega)
  omega

/-- Under the invariant, the bits of `fixed` from `bw` up are exactly the
physical positions below `32*nw`. -/
theorem fixed_testBit_high {s : Val} (hfx : s.fixed >>> s.bw = 2 ^ (totalBits s.bw - s.bw) - 1)
    {i : Nat} (hi : s.bw ≤ i) : s.fixed.testBit i = decide (i < totalBits s.bw) := by
  have h1 : s.fixed.testBit i = (s.fixed >>> s.bw).testBit (i - s.bw) := by
    rw [Nat.testBit_shiftRight, Nat.add_sub_cancel' hi]
  rw [h1, hfx, Nat.testBit_two_pow_sub_one]
  have htb := le_totalBits s.bw
  by_cases h2 : i < totalBits s.bw
  · rw [decide_eq_true h2, decide_eq_true (by omega : i - s.bw < totalBits s.bw - s.bw)]
  · rw [decide_eq_false h2, decide_eq_false (by omega : ¬ i - s.bw < totalBits s.bw - s.bw)]

/-- Under the invariant, `~fixed` lives below `2^bw`. -/
theorem compl_fixed_lt {s : Val}
    (hfx : s.fixed >>> s.bw = 2 ^ (totalBits s.bw - s.bw) - 1) :
    compl (totalBits s.bw) s.fixed < 2 ^ s.bw := by
  apply lt_two_pow_of_high_false
  intro i hi
  unfold compl
  rw [Nat.testBit_xor, Nat.testBit_two_pow_sub_one, fixed_testBit_high hfx hi]
  by_cases h2 : i < totalBits s.bw
  · rw [decide_eq_true h2]
    rfl
  · rw [decide_eq_false h2]
    rfl

/-- Clearing the low `k` bits does not increase a number. -/
theorem shr_shl_le (x k : Nat) : (x >>> k) <<< k ≤ x := by
  rw [Nat.shiftLeft_eq, Nat.shiftRight_eq_div_pow]
  exact Nat.div_mul_le_self x (2 ^ k)

/-- A single word put back in place does not exceed the whole number. -/
theorem wordOf_shl_le (x i : Nat) : wordOf x i <<< (32 * i) ≤ x := by
  unfold wordOf
  rw [Nat.shiftLeft_eq, Nat.shiftRight_eq_div_pow]
  calc x / 2 ^ (32 * i) % 2 ^ 32 * 2 ^ (32 * i)
      ≤ x / 2 ^ (32 * i) * 2 ^ (32 * i) :=
        Nat.mul_le_mul_right _ (Nat.mod_le _ _)
    _ ≤ x := Nat.div_mul_le_self x _

/-- A successful `round_up` keeps the result overflow-free. -/
theorem round_up_bound {s : Val} {d d2 : Nat} (hlo : s.lo < 2 ^ s.bw)
    (hd : d < 2 ^ s.bw) (h : round_up s d = some d2) : d2 < 2 ^ s.bw := by
  unfold round_up at h
  split_ifs at h <;> (try cases h) <;> omega

/-- A successful `round_down` keeps the result overflow-free. -/
theorem round_down_bound {s : Val} {d d2 : Nat} (hbw : 1 ≤ s.bw)
    (hd : d < 2 ^ s.bw) (h : round_down s d = some d2) : d2 < 2 ^ s.bw := by
  have hs : sub1 s.bw s.hi < 2 ^ s.bw :=
    Nat.mod_lt _ (Nat.pos_pow_of_pos _ (by omega))
  unfold round_down at h
  split_ifs at h <;> (try cases h) <;> omega

/-- Phase A of `get_at_most` produces an overflow-free candidate. -/
theorem gam_adjust_lt {s : Val} (src : Nat)
    (hfx : s.fixed >>> s.bw = 2 ^ (totalBits s.bw - s.bw) - 1)
    (hbits : s.bits < 2 ^ s.bw) : gam_adjust s src < 2 ^ s.bw := by
  have hcF := compl_fixed_lt hfx
  have hor : compl (totalBits s.bw) s.fixed ||| s.bits < 2 ^ s.bw :=
    Nat.or_lt_two_pow hcF hbits
  have hdst0 : gam_dst0 s src < 2 ^ s.bw := by
    unfold gam_dst0
    exact lt_of_le_of_lt Nat.and_le_right hor
  unfold gam_adjust
  cases htop : topNonzeroWord (compl (totalBits s.bw) (gam_dst0 s src) &&& src) (numWords s.bw) with
  | none => exact hdst0
  | some i =>
    apply Nat.or_lt_two_pow
    apply Nat.or_lt_two_pow
    · exact lt_of_le_of_lt (shr_shl_le _ _) hdst0
    · exact lt_of_le_of_lt Nat.and_le_left hcF
    · exact lt_of_le_of_lt (Nat.mod_le _ _) hor

/-- Phase A of `get_at_least` produces an overflow-free candidate. -/
theorem gal_adjust_lt {s : Val} (src : Nat)
    (hfx : s.fixed >>> s.bw = 2 ^ (totalBits s.bw - s.bw) - 1)
    (hbits : s.bits < 2 ^ s.bw) : gal_adjust s src < 2 ^ s.bw := by
  have hcF := compl_fixed_lt hfx
  have hdst0 : gal_dst0 s src < 2 ^ s.bw := by
    unfold gal_dst0
    exact Nat.or_lt_two_pow (lt_of_le_of_lt Nat.and_le_left hcF)
      (lt_of_le_of_lt Nat.and_le_right hbits)
  unfold gal_adjust
  cases htop : topNonzeroWord (gal_dst0 s src &&& compl (totalBits s.bw) src) (numWords s.bw) with
  | none => exact hdst0
  | some i =>
    apply Nat.or_lt_two_pow
    apply Nat.or_lt_two_pow
    · exact lt_of_le_of_lt (shr_shl_le _ _) hdst0
    · refine lt_of_le_of_lt ?_ hdst0
      calc (wordOf (gal_dst0 s src) i &&& _) <<< (32 * i)
          ≤ wordOf (gal_dst0 s src) i <<< (32 * i) := by
            rw [Nat.shiftLeft_eq, Nat.shiftLeft_eq]
            exact Nat.mul_le_mul_right _ Nat.and_le_left
        _ ≤ gal_dst0 s src := wordOf_shl_le _ _
    · exact lt_of_le_of_lt (Nat.mod_le _ _) (lt_of_le_of_lt Nat.and_le_left hdst0)

/-- A successful `get_at_most` returns an overflow-free value. -/
theorem get_at_most_bound {s : Val} {src d : Nat} (hbw : 1 ≤ s.bw)
    (hfx : s.fixed >>> s.bw = 2 ^ (totalBits s.bw - s.bw) - 1)
    (hbits : s.bits < 2 ^ s.bw) (h : get_at_most s src = some d) : d < 2 ^ s.bw := by
  unfold get_at_most at h
  exact round_down_bound hbw (gam_adjust_lt src hfx hbits) h

/-- A successful `get_at_least` returns an overflow-free value. -/
theorem get_at_least_bound {s : Val} {src d : Nat} (hlo : s.lo < 2 ^ s.bw)
    (hfx : s.fixed >>> s.bw = 2 ^ (totalBits s.bw - s.bw) - 1)
    (hbits : s.bits < 2 ^ s.bw) (h : get_at_least s src = some d) : d < 2 ^ s.bw := by
  unfold get_at_least at h
  exact round_up_bound hlo (gal_adjust_lt src hfx hbits) h

/-- `set_random_above` keeps the value overflow-free. -/
theorem set_random_above_lt {s : Val} {dst : Nat} (r : Nat → Nat) (k : Nat)
    (hfx : s.fixed >>> s.bw = 2 ^ (totalBits s.bw - s.bw) - 1)
    (hdst : dst < 2 ^ s.bw) : (set_random_above s dst r k).1 < 2 ^ s.bw := by
  have hcF := compl_fixed_lt hfx
  unfold set_random_above
  apply foldl_inv (P := fun (a : Nat × Nat) => a.1 < 2 ^ s.bw)
  · exact hdst
  · intro b i _ hb
    apply Nat.or_lt_two_pow hb
    refine lt_of_le_of_lt ?_ hcF
    calc (random_bits r b.2 &&& wordOf (compl (totalBits s.bw) s.fixed) i) <<< (32 * i)
        ≤ wordOf (compl (totalBits s.bw) s.fixed) i <<< (32 * i) := by
          rw [Nat.shiftLeft_eq, Nat.shiftLeft_eq]
          exact Nat.mul_le_mul_right _ Nat.and_le_right
      _ ≤ compl (totalBits s.bw) s.fixed := wordOf_shl_le _ _

/-- `set_random_below` keeps the value overflow-free. -/
theorem set_random_below_lt (s : Val) (dst : Nat) (r : Nat → Nat) (k : Nat)
    (hdst : dst < 2 ^ s.bw) : (set_random_below s dst r k).1 < 2 ^ s.bw := by
  unfold set_random_below
  by_cases hz : dst = 0
  · rw [if_pos hz]; exact hdst
  · rw [if_neg hz]
    simp only
    set acc := (List.range s.bw).foldl
      (fun (a : Nat × Option Nat × Nat) i =>
        if dst.testBit i = true ∧ s.fixed.testBit i = false then
          (if r a.2.2 % (a.1 + 1) = 0 then (a.1 + 1, some i, a.2.2 + 1)
           else (a.1 + 1, a.2.1, a.2.2 + 1))
        else a)
      (0, none, k) with hacc
    have hidx : ∀ j, acc.2.1 = some j → j < s.bw := by
      rw [hacc]
      apply foldl_inv (P := fun (a : Nat × Option Nat × Nat) => ∀ j, a.2.1 = some j → j < s.bw)
      · intro j hj; cases hj
      · intro b i hi hb
        by_cases hc : dst.testBit i = true ∧ s.fixed.testBit i = false
        · simp only [if_pos hc]
          by_cases hr : r b.2.2 % (b.1 + 1) = 0
          · simp only [if_pos hr]
            intro j hj
            cases hj
            exact List.mem_range.mp hi
          · simp only [if_neg hr]
            exact hb
        · simp only [if_neg hc]
          exact hb
    cases hm : acc.2.1 with
    | none => exact hdst
    | some idx =>
      have hlt := hidx idx hm
      apply foldl_inv (P := fun (a : Nat × Nat) => a.1 < 2 ^ s.bw)
      · exact setB_lt hdst hlt false
      · intro b i hi hb
        by_cases hc : s.fixed.testBit i = false
        · simp only [if_pos hc]
          exact setB_lt hb (by
            have := List.mem_range.mp hi
            omega) _
        · simp only [if_neg hc]
          exact hb

/-- The predicate overloads of the rounds keep the value overflow-free. -/
theorem round_down_pred_lt (s : Val) (p : Nat → Bool) {dst : Nat}
    (hdst : dst < 2 ^ s.bw) : round_down_pred s p dst < 2 ^ s.bw := by
  unfold round_down_pred
  apply foldl_inv (P := fun d => d < 2 ^ s.bw)
  · exact hdst
  · intro b i hi hb
    obtain ⟨t, ht, rfl⟩ := List.mem_map.mp hi
    have htr := List.mem_range.mp ht
    by_cases hc : p b = true
    · rw [if_pos hc]; exact hb
    · rw [if_neg hc]
      by_cases hc2 : s.fixed.testBit (s.bw - 1 - t) = false ∧ b.testBit (s.bw - 1 - t) = true
      · rw [if_pos hc2]
        exact setB_lt hb (by omega) _
      · rw [if_neg hc2]; exact hb

/-- See `round_down_pred_lt`. -/
theorem round_up_pred_lt (s : Val) (p : Nat → Bool) {dst : Nat}
    (hdst : dst < 2 ^ s.bw) : round_up_pred s p dst < 2 ^ s.bw := by
  unfold round_up_pred
  apply foldl_inv (P := fun d => d < 2 ^ s.bw)
  · exact hdst
  · intro b i hi hb
    have htr := List.mem_range.mp hi
    by_cases hc : p b = true
    · rw [if_pos hc]; exact hb
    · rw [if_neg hc]
      by_cases hc2 : s.fixed.testBit i = false ∧ b.testBit i = false
      · rw [if_pos hc2]
        exact setB_lt hb (by omega) _
      · rw [if_neg hc2]; exact hb

/-- `try_set` preserves the invariant whenever the candidate is
overflow-free. -/
theorem try_set_inv {s : Val} {t : Nat} (h : Inv s) (ht : t < 2 ^ s.bw) :
    Inv (try_set s t).2 := by
  unfold try_set
  by_cases hc : can_set s t = true
  · rw [if_pos hc]
    obtain ⟨h1, h2, h3, h4, _h5, h6⟩ := h
    exact ⟨h1, h2, h3, h4, ht, h6⟩
  · rw [if_neg hc]
    exact h

/-- The fresh state satisfies the invariant. -/
theorem fresh_inv (bw : Nat) (h : 1 ≤ bw) : Inv (fresh bw) := by
  have hp : 0 < 2 ^ bw := Nat.pos_pow_of_pos _ (by omega)
  unfold Inv fresh
  refine ⟨h, hp, hp, hp, hp, ?_⟩
  show (2 ^ totalBits bw - 2 ^ bw) >>> bw = 2 ^ (totalBits bw - bw) - 1
  rw [Nat.shiftRight_eq_div_pow]
  have htb := le_totalBits bw
  have he : 2 ^ totalBits bw - 2 ^ bw = (2 ^ (totalBits bw - bw) - 1) * 2 ^ bw := by
    rw [Nat.sub_mul, ← Nat.pow_add, Nat.one_mul]
    congr 2
    omega
  rw [he, Nat.mul_div_cancel _ hp]

/-- `add_range` preserves the invariant. -/
theorem add_range_inv {s : Val} (h : Inv s) (l0 h0 : Nat) : Inv (add_range s l0 h0) := by
  obtain ⟨hbw, hlo, hhi, hbits, heval, hfx⟩ := h
  have hp : 0 < 2 ^ s.bw := Nat.pos_pow_of_pos _ (by omega)
  have hl : l0 % 2 ^ s.bw < 2 ^ s.bw := Nat.mod_lt _ hp
  have hh : h0 % 2 ^ s.bw < 2 ^ s.bw := Nat.mod_lt _ hp
  unfold add_range
  by_cases h0eq : h0 % 2 ^ s.bw = l0 % 2 ^ s.bw
  · rw [if_pos h0eq]
    exact ⟨hbw, hlo, hhi, hbits, heval, hfx⟩
  · rw [if_neg h0eq]
    dsimp only
    unfold Inv
    refine ⟨hbw, ?_, ?_, hbits, ?_, hfx⟩
    · split_ifs <;> first | exact hl | exact hlo
    · split_ifs <;> first | exact hh | exact hhi
    · split_ifs <;> first | exact heval | exact hl | exact hlo

/-- `findTopFD` only returns positions below the width. -/
theorem findTopFD_lt {f b w bw i : Nat} (h : findTopFD f b w bw = some i) : i < bw := by
  have key : ∀ j, findTopFD f b w bw = some j → j < bw := by
    unfold findTopFD
    apply foldl_inv (P := fun (a : Option Nat) => ∀ j, a = some j → j < bw)
    · intro j hj; cases hj
    · intro a i2 hi2 ha j hj
      by_cases hc : f.testBit i2 = true ∧ ¬ (b.testBit i2 = w.testBit i2)
      · rw [if_pos hc] at hj
        cases hj
        exact List.mem_range.mp hi2
      · rw [if_neg hc] at hj
        exact ha j hj
  exact key i h

/-- `msbIdx` stays below the width. -/
theorem msbIdx_lt (v : Nat) {n : Nat} (h : 1 ≤ n) : msbIdx v n < n := by
  unfold msbIdx
  apply foldl_inv (P := fun a => a < n)
  · omega
  · intro a i hi _
    by_cases hc : v.testBit i
    · rw [if_pos hc]; exact List.mem_range.mp hi
    · rw [if_neg hc]; assumption

/-- `lowReplace` keeps a bounded value bounded when it writes below `bw`. -/
theorem lowReplace_lt {v n bw : Nat} (f : Nat → Bool) (hv : v < 2 ^ bw) (hn : n ≤ bw) :
    lowReplace v f n < 2 ^ bw := by
  unfold lowReplace
  apply foldl_inv (P := fun a => a < 2 ^ bw)
  · exact hv
  · intro a j hj _
    exact setB_lt (by assumption) (by have := List.mem_range.mp hj; omega) _

/-- A fold of `pinBit` over positions below `bw` preserves both halves of the
`(fixed, eval)` invariant. -/
theorem pinFold_inv {bw pat : Nat} (g : Nat → Bool) (l : List Nat)
    (hl : ∀ i, i ∈ l → i < bw) (fe : Nat × Nat)
    (h1 : fe.1 >>> bw = pat) (h2 : fe.2 < 2 ^ bw) :
    (l.foldl (fun fe i => pinBit fe i (g i)) fe).1 >>> bw = pat ∧
    (l.foldl (fun fe i => pinBit fe i (g i)) fe).2 < 2 ^ bw := by
  refine foldl_inv (P := fun (a : Nat × Nat) => a.1 >>> bw = pat ∧ a.2 < 2 ^ bw)
    l fe ⟨h1, h2⟩ ?_
  intro b i hi hb
  unfold pinBit
  by_cases hc : b.1.testBit i
  · rw [if_pos hc]; exact hb
  · rw [if_neg hc]
    exact ⟨by rw [setB_shiftRight _ _ (hl i hi), hb.1],
      setB_lt hb.2 (hl i hi) _⟩

/-- A single `pinBit` below `bw` preserves the `(fixed, eval)` invariant. -/
theorem pinBit_inv {bw pat i : Nat} (b : Bool) (hi : i < bw) (fe : Nat × Nat)
    (h1 : fe.1 >>> bw = pat) (h2 : fe.2 < 2 ^ bw) :
    (pinBit fe i b).1 >>> bw = pat ∧ (pinBit fe i b).2 < 2 ^ bw := by
  unfold pinBit
  by_cases hc : fe.1.testBit i
  · rw [if_pos hc]; exact ⟨h1, h2⟩
  · rw [if_neg hc]
    exact ⟨by rw [setB_shiftRight _ _ hi, h1], setB_lt h2 hi _⟩

/-- `init_fixed` preserves the invariant. -/
theorem init_fixed_inv {s : Val} (h : Inv s) : Inv (init_fixed s) := by
  obtain ⟨hbw, hlo, hhi, hbits, heval, hfx⟩ := h
  have hp : 0 < 2 ^ s.bw := Nat.pos_pow_of_pos _ (by omega)
  have hlo2 : if_lo s < 2 ^ s.bw := by
    unfold if_lo
    cases hf : findTopFD s.fixed s.bits s.lo s.bw with
    | none => exact hlo
    | some i =>
      dsimp only
      have hilt := findTopFD_lt hf
      by_cases hb : s.bits.testBit i
      · rw [if_pos hb]
        exact lowReplace_lt _ (setB_lt hlo hilt true) (by omega)
      · rw [if_neg hb]
        exact lowReplace_lt _ hlo (Nat.le_refl _)
  have hhi2 : if_hi s < 2 ^ s.bw := by
    unfold if_hi
    cases hf : findTopFD s.fixed s.bits (sub1 s.bw s.hi) s.bw with
    | none => exact hhi
    | some i =>
      dsimp only
      exact Nat.mod_lt _ hp
  unfold init_fixed
  by_cases heq : s.lo = s.hi
  · rw [if_pos heq]
    exact ⟨hbw, hlo, hhi, hbits, heval, hfx⟩
  · rw [if_neg heq]
    have hfe1 : (if_fe1 s (if_lo s) (if_hi s)).1 >>> s.bw =
        2 ^ (totalBits s.bw - s.bw) - 1 ∧ (if_fe1 s (if_lo s) (if_hi s)).2 < 2 ^ s.bw := by
      unfold if_fe1
      by_cases hc : if_lo s < if_hi s
      · rw [if_pos hc]
        have hfold := pinFold_inv (fun _ => false)
          ((List.range (s.bw - (msbIdx (if_hi s) s.bw + 1))).map (fun t => s.bw - 1 - t))
          (by
            intro i hi
            obtain ⟨t, _, rfl⟩ := List.mem_map.mp hi
            omega)
          (s.fixed, s.eval) hfx heval
        by_cases hc2 : countOnes (if_hi s) (totalBits s.bw) = 1
        · rw [if_pos hc2]
          exact pinBit_inv false (msbIdx_lt (if_hi s) hbw) _ hfold.1 hfold.2
        · rw [if_neg hc2]
          exact hfold
      · rw [if_neg hc]
        exact ⟨hfx, heval⟩
    have hfe2 : (if_fe2 s (if_lo s) (if_hi s) (if_fe1 s (if_lo s) (if_hi s))).1 >>> s.bw =
        2 ^ (totalBits s.bw - s.bw) - 1 ∧
        (if_fe2 s (if_lo s) (if_hi s) (if_fe1 s (if_lo s) (if_hi s))).2 < 2 ^ s.bw := by
      unfold if_fe2
      by_cases hc : (if_lo s + 1) % 2 ^ s.bw = if_hi s
      · rw [if_pos hc]
        exact pinFold_inv (fun i => (if_lo s).testBit i) (List.range s.bw)
          (fun i hi => List.mem_range.mp hi) _ hfe1.1 hfe1.2
      · rw [if_neg hc]
        exact hfe1
    exact ⟨hbw, hlo2, hhi2, hbits, hfe2.2, hfe2.1⟩

/-- `set_repair` preserves the invariant. -/
theorem set_repair_inv {s : Val} (h : Inv s) (td : Bool) (dst : Nat) :
    Inv (set_repair s td dst).2 := by
  obtain ⟨hbw, hlo, hhi, hbits, heval, hfx⟩ := h
  have hd : (compl (totalBits s.bw) s.fixed &&& dst) ||| (s.fixed &&& s.bits) < 2 ^ s.bw :=
    Nat.or_lt_two_pow (lt_of_le_of_lt Nat.and_le_left (compl_fixed_lt hfx))
      (lt_of_le_of_lt Nat.and_le_right hbits)
  unfold set_repair
  dsimp only
  cases td with
  | true =>
    rw [if_pos rfl, if_pos rfl]
    cases h1 : round_down s ((compl (totalBits s.bw) s.fixed &&& dst) ||| (s.fixed &&& s.bits)) with
    | some d2 => exact ⟨hbw, hlo, hhi, hbits, round_down_bound hbw hd h1, hfx⟩
    | none =>
      cases h2 : round_up s ((compl (totalBits s.bw) s.fixed &&& dst) ||| (s.fixed &&& s.bits)) with
      | some d2 => exact ⟨hbw, hlo, hhi, hbits, round_up_bound hlo hd h2, hfx⟩
      | none => exact ⟨hbw, hlo, hhi, hbits, heval, hfx⟩
  | false =>
    rw [if_neg (by simp), if_neg (by simp)]
    cases h1 : round_up s ((compl (totalBits s.bw) s.fixed &&& dst) ||| (s.fixed &&& s.bits)) with
    | some d2 => exact ⟨hbw, hlo, hhi, hbits, round_up_bound hlo hd h1, hfx⟩
    | none =>
      cases h2 : round_down s ((compl (totalBits s.bw) s.fixed &&& dst) ||| (s.fixed &&& s.bits)) with
      | some d2 => exact ⟨hbw, hlo, hhi, hbits, round_down_bound hbw hd h2, hfx⟩
      | none => exact ⟨hbw, hlo, hhi, hbits, heval, hfx⟩

/-- `commit_eval` preserves the invariant. -/
theorem commit_eval_inv {s : Val} (h : Inv s) : Inv (commit_eval s) := by
  obtain ⟨hbw, hlo, hhi, _hbits, heval, hfx⟩ := h
  exact ⟨hbw, hlo, hhi, heval, heval, hfx⟩

/-- `set_random_at_most` preserves the invariant. -/
theorem set_random_at_most_inv {s : Val} (h : Inv s) (src : Nat) (r : Nat → Nat) (k : Nat) :
    Inv (set_random_at_most s src r k).2 := by
  have h' := h
  obtain ⟨hbw, hlo, hhi, hbits, heval, hfx⟩ := h'
  unfold set_random_at_most
  cases hg : get_at_most s src with
  | none => exact h
  | some tmp =>
    have htmp := get_at_most_bound hbw hfx hbits hg
    dsimp only
    by_cases hc1 : tmp = 0 ∨ r k % 2 = 0
    · rw [if_pos hc1]
      exact try_set_inv h htmp
    · rw [if_neg hc1]
      by_cases hc2 : s.lo = s.hi ∨ s.lo = 0 ∨ s.lo ≤ (set_random_below s tmp r (k + 1)).1
      · rw [if_pos hc2]
        exact try_set_inv h (set_random_below_lt s tmp r (k + 1) htmp)
      · rw [if_neg hc2]
        exact try_set_inv h htmp

/-- `set_random_at_least` preserves the invariant. -/
theorem set_random_at_least_inv {s : Val} (h : Inv s) (src : Nat) (r : Nat → Nat) (k : Nat) :
    Inv (set_random_at_least s src r k).2 := by
  have h' := h
  obtain ⟨hbw, hlo, hhi, hbits, heval, hfx⟩ := h'
  unfold set_random_at_least
  cases hg : get_at_least s src with
  | none => exact h
  | some tmp =>
    have htmp := get_at_least_bound hlo hfx hbits hg
    dsimp only
    by_cases hc1 : tmp = 2 ^ s.bw - 1 ∨ r k % 2 = 0
    · rw [if_pos hc1]
      exact try_set_inv h htmp
    · rw [if_neg hc1]
      by_cases hc2 : s.lo = s.hi ∨ s.hi = 0 ∨ (set_random_above s tmp r (k + 1)).1 < s.hi
      · rw [if_pos hc2]
        exact try_set_inv h (set_random_above_lt r (k + 1) hfx htmp)
      · rw [if_neg hc2]
        exact try_set_inv h htmp

/-- `set_random_in_range` preserves the invariant. -/
theorem set_random_in_range_inv {s : Val} (h : Inv s) (loQ hiQ : Nat) (r : Nat → Nat)
    (k : Nat) : Inv (set_random_in_range s loQ hiQ r k).2 := by
  have h' := h
  obtain ⟨hbw, hlo, hhi, hbits, heval, hfx⟩ := h'
  unfold set_random_in_range
  by_cases hdir : r k % 2 = 0
  · rw [if_pos hdir]
    cases hg : get_at_least s loQ with
    | none => exact h
    | some tmp =>
      have htmp := get_at_least_bound hlo hfx hbits hg
      dsimp only
      by_cases hc0 : hiQ < tmp
      · rw [if_pos hc0]; exact h
      · rw [if_neg hc0]
        by_cases hc1 : tmp = 2 ^ s.bw - 1 ∨ r (k + 1) % 2 = 0
        · rw [if_pos hc1]
          exact try_set_inv h htmp
        · rw [if_neg hc1]
          have ht3 : round_down_pred s (fun t => decide (t ≤ hiQ) && in_range s t)
              (set_random_above s tmp r (k + 2)).1 < 2 ^ s.bw :=
            round_down_pred_lt s _ (set_random_above_lt r (k + 2) hfx htmp)
          by_cases hc2 : in_range s (round_down_pred s (fun t => decide (t ≤ hiQ) && in_range s t)
              (set_random_above s tmp r (k + 2)).1) = true ∧
              loQ ≤ round_down_pred s (fun t => decide (t ≤ hiQ) && in_range s t)
                (set_random_above s tmp r (k + 2)).1 ∧
              round_down_pred s (fun t => decide (t ≤ hiQ) && in_range s t)
                (set_random_above s tmp r (k + 2)).1 ≤ hiQ
          · rw [if_pos hc2]
            exact try_set_inv h ht3
          · rw [if_neg hc2]
            by_cases hc3 : tmp ≤ hiQ
            · rw [if_pos hc3]
              exact try_set_inv h htmp
            · rw [if_neg hc3]; exact h
  · rw [if_neg hdir]
    cases hg : get_at_most s hiQ with
    | none => exact h
    | some tmp =>
      have htmp := get_at_most_bound hbw hfx hbits hg
      dsimp only
      by_cases hc0 : tmp < loQ
      · rw [if_pos hc0]; exact h
      · rw [if_neg hc0]
        by_cases hc1 : tmp = 0 ∨ r (k + 1) % 2 = 0
        · rw [if_pos hc1]
          exact try_set_inv h htmp
        · rw [if_neg hc1]
          have ht3 : round_up_pred s (fun t => decide (loQ ≤ t) && in_range s t)
              (set_random_below s tmp r (k + 2)).1 < 2 ^ s.bw :=
            round_up_pred_lt s _ (set_random_below_lt s tmp r (k + 2) htmp)
          by_cases hc2 : in_range s (round_up_pred s (fun t => decide (loQ ≤ t) && in_range s t)
              (set_random_below s tmp r (k + 2)).1) = true ∧
              loQ ≤ round_up_pred s (fun t => decide (loQ ≤ t) && in_range s t)
                (set_random_below s tmp r (k + 2)).1 ∧
              round_up_pred s (fun t => decide (loQ ≤ t) && in_range s t)
                (set_random_below s tmp r (k + 2)).1 ≤ hiQ
          · rw [if_pos hc2]
            exact try_set_inv h ht3
          · rw [if_neg hc2]
            by_cases hc3 : loQ ≤ tmp
            · rw [if_pos hc3]
              exact try_set_inv h htmp
            · rw [if_neg hc3]; exact h

/-- Every reachable valuation satisfies the invariant. -/
theorem reach_inv {s : Val} (h : Reach s) : Inv s := by
  induction h with
  | fresh bw hbw => exact fresh_inv bw hbw
  | add_range l0 h0 _ ih => exact add_range_inv ih l0 h0
  | init_fixed _ ih => exact init_fixed_inv ih
  | set_repair td dst _ ih => exact set_repair_inv ih td dst
  | commit_eval _ ih => exact commit_eval_inv ih
  | set_random_at_most src r k _ ih => exact set_random_at_most_inv ih src r k
  | set_random_at_least src r k _ ih => exact set_random_at_least_inv ih src r k
  | set_random_in_range loQ hiQ r k _ ih => exact set_random_in_range_inv ih loQ hiQ r k
  | pin i b hib _ ih =>
    obtain ⟨hbw, hlo, hhi, hbits, heval, hfx⟩ := ih
    exact ⟨hbw, hlo, hhi, setB_lt hbits hib b, heval, by
      show setB _ i true >>> _ = _
      rw [setB_shiftRight _ _ hib, hfx]⟩

/-- Decomposition of the width against the word grid. -/
theorem nw_decomp (bw : Nat) (h : 1 ≤ bw) :
    numWords bw = (bw - 1) / 32 + 1 ∧
    bw = 32 * ((bw - 1) / 32) + ((bw - 1) % 32 + 1) := by
  unfold numWords
  have h1 := Nat.div_add_mod (bw - 1) 32
  have h2 : (bw - 1) % 32 < 32 := Nat.mod_lt _ (by omega)
  constructor
  · have h3 : bw + 31 = 32 * ((bw - 1) / 32 + 1) + (bw - 1) % 32 := by omega
    rw [h3, Nat.mul_add_div (by omega), Nat.div_eq_of_lt h2, Nat.add_zero]
  · omega

/-- The top-word mask selects the bits below `(bw-1) % 32 + 1`. -/
theorem wmask_eq (bw : Nat) (h : 1 ≤ bw) : wmask bw = 2 ^ ((bw - 1) % 32 + 1) - 1 := by
  unfold wmask
  by_cases hz : bw % 32 = 0
  · rw [if_pos hz]
    have h31 : (bw - 1) % 32 = 31 := by omega
    rw [h31]
  · rw [if_neg hz]
    have hr : bw % 32 = (bw - 1) % 32 + 1 := by omega
    rw [hr]

/-- `has_overflow` is false on every overflow-free value. -/
theorem has_overflow_eq_false {bw v : Nat} (hbw : 1 ≤ bw) (hv : v < 2 ^ bw) :
    has_overflow bw v = false := by
  obtain ⟨hnw, hdecomp⟩ := nw_decomp bw hbw
  have hlt : v >>> (32 * ((bw - 1) / 32)) < 2 ^ ((bw - 1) % 32 + 1) := by
    rw [Nat.shiftRight_eq_div_pow]
    apply Nat.div_lt_of_lt_mul
    rw [← Nat.pow_add]
    rw [← hdecomp]
    exact hv
  have hword : wordOf v (numWords bw - 1) = v >>> (32 * ((bw - 1) / 32)) := by
    unfold wordOf
    rw [hnw]
    simp only [Nat.add_sub_cancel]
    apply Nat.mod_eq_of_lt
    exact lt_of_lt_of_le hlt (Nat.pow_le_pow_right (by omega) (by
      have := Nat.mod_lt (bw - 1) (by omega : 0 < 32)
      omega))
  unfold has_overflow
  rw [hword, wmask_eq bw hbw]
  have hz : v >>> (32 * ((bw - 1) / 32)) &&& compl 32 (2 ^ ((bw - 1) % 32 + 1) - 1) = 0 := by
    apply Nat.eq_of_testBit_eq
    intro j
    rw [Nat.zero_testBit, Nat.testBit_and]
    unfold compl
    rw [Nat.testBit_xor, Nat.testBit_two_pow_sub_one, Nat.testBit_two_pow_sub_one]
    by_cases hj : j < (bw - 1) % 32 + 1
    · rw [decide_eq_true (by
        have := Nat.mod_lt (bw - 1) (by omega : 0 < 32)
        omega : j < 32), decide_eq_true hj]
      simp
    · rw [Nat.testBit_lt_two_pow
        (lt_of_lt_of_le hlt (Nat.pow_le_pow_right (by omega) (by omega)))]
      simp
  rw [hz]
  simp

/-- Under the invariant, the top word of `fixed` contains the whole `~mask`
pattern (invariant 2 of §8: `fixed[nw-1] & ~mask == ~mask`). -/
theorem fixed_word_pattern {s : Val} (hbw : 1 ≤ s.bw)
    (hfx : s.fixed >>> s.bw = 2 ^ (totalBits s.bw - s.bw) - 1) :
    wordOf s.fixed (numWords s.bw - 1) &&& compl 32 (wmask s.bw) =
      compl 32 (wmask s.bw) := by
  obtain ⟨hnw, hdecomp⟩ := nw_decomp s.bw hbw
  have hrem := Nat.mod_lt (s.bw - 1) (by omega : 0 < 32)
  have htbeq : totalBits s.bw = 32 * ((s.bw - 1) / 32) + 32 := by
    unfold totalBits
    rw [hnw]
    ring
  have hword : wordOf s.fixed (numWords s.bw - 1) =
      (s.fixed >>> (32 * ((s.bw - 1) / 32))) % 2 ^ 32 := by
    unfold wordOf
    rw [hnw]
    simp only [Nat.add_sub_cancel]
  rw [hword, wmask_eq s.bw hbw]
  apply Nat.eq_of_testBit_eq
  intro j
  rw [Nat.testBit_and]
  have hMbit : (compl 32 (2 ^ ((s.bw - 1) % 32 + 1) - 1)).testBit j =
      (decide ((s.bw - 1) % 32 + 1 ≤ j) && decide (j < 32)) := by
    unfold compl
    rw [Nat.testBit_xor, Nat.testBit_two_pow_sub_one, Nat.testBit_two_pow_sub_one]
    by_cases h1 : j < (s.bw - 1) % 32 + 1
    · rw [decide_eq_true (by omega : j < 32), decide_eq_true h1,
        decide_eq_false (by omega : ¬ (s.bw - 1) % 32 + 1 ≤ j)]
      simp
    · by_cases h2 : j < 32
      · rw [decide_eq_true h2, decide_eq_false h1,
          decide_eq_true (by omega : (s.bw - 1) % 32 + 1 ≤ j)]
        rfl
      · rw [decide_eq_false h2, decide_eq_false (by omega : ¬ j < (s.bw - 1) % 32 + 1)]
        simp
  rw [hMbit]
  by_cases hM : (s.bw - 1) % 32 + 1 ≤ j ∧ j < 32
  · rw [decide_eq_true hM.1, decide_eq_true hM.2]
    have hXbit : ((s.fixed >>> (32 * ((s.bw - 1) / 32))) % 2 ^ 32).testBit j = true := by
      rw [Nat.testBit_mod_two_pow, Nat.testBit_shiftRight]
      rw [fixed_testBit_high hfx (by omega : s.bw ≤ 32 * ((s.bw - 1) / 32) + j)]
      rw [decide_eq_true (by omega : 32 * ((s.bw - 1) / 32) + j < totalBits s.bw)]
      rw [decide_eq_true hM.2]
      rfl
    rw [hXbit]
    rfl
  · have : (decide ((s.bw - 1) % 32 + 1 ≤ j) && decide (j < 32)) = false := by
      by_cases h1 : (s.bw - 1) % 32 + 1 ≤ j
      · rw [decide_eq_true h1, decide_eq_false (by omega : ¬ j < 32)]
        rfl
      · rw [decide_eq_false h1]
        rfl
    rw [this, Bool.and_false]

/-- C4, counterexample: immediately after construction at width 4,
`has_overflow(fixed)` is `true`: the constructor stores `~mask` into the top
word of `fixed`, deliberately setting all its overflow bits. -/
theorem fresh_fixed_has_overflow : has_overflow 4 (fresh 4).fixed = true := by decide

/-- C4, amended: in every reachable valuation state, `lo`, `hi`, `bits` and
`eval` are overflow-free, while `fixed` carries all the overflow bits of its
top word (`fixed[nw-1] & ~mask == ~mask`, invariant 2 of §8) rather than
none of them. -/
theorem reachable_no_overflow (s : Val) (h : Reach s) :
    has_overflow s.bw s.lo = false ∧ has_overflow s.bw s.hi = false ∧
    has_overflow s.bw s.bits = false ∧ has_overflow s.bw s.eval = false ∧
    wordOf s.fixed (numWords s.bw - 1) &&& compl 32 (wmask s.bw) =
      compl 32 (wmask s.bw) := by
  obtain ⟨hbw, hlo, hhi, hbits, heval, hfx⟩ := reach_inv h
  exact ⟨has_overflow_eq_false hbw hlo, has_overflow_eq_false hbw hhi,
    has_overflow_eq_false hbw hbits, has_overflow_eq_false hbw heval,
    fixed_word_pattern hbw hfx⟩

/-- Witness for C4's amended invariant at the freshly constructed width-8
state after one `add_range` and one `init_fixed`. -/
theorem reachable_no_overflow_w :
    has_overflow (init_fixed (add_range (fresh 8) 0x42 0x43)).bw
        (init_fixed (add_range (fresh 8) 0x42 0x43)).lo = false ∧
    has_overflow (init_fixed (add_range (fresh 8) 0x42 0x43)).bw
        (init_fixed (add_range (fresh 8) 0x42 0x43)).hi = false ∧
    has_overflow (init_fixed (add_range (fresh 8) 0x42 0x43)).bw
        (init_fixed (add_range (fresh 8) 0x42 0x43)).bits = false ∧
    has_overflow (init_fixed (add_range (fresh 8) 0x42 0x43)).bw
        (init_fixed (add_range (fresh 8) 0x42 0x43)).eval = false ∧
    wordOf (init_fixed (add_range (fresh 8) 0x42 0x43)).fixed
        (numWords (init_fixed (add_range (fresh 8) 0x42 0x43)).bw - 1) &&&
        compl 32 (wmask (init_fixed (add_range (fresh 8) 0x42 0x43)).bw) =
      compl 32 (wmask (init_fixed (add_range (fresh 8) 0x42 0x43)).bw) :=
  reachable_no_overflow (init_fixed (add_range (fresh 8) 0x42 0x43))
    (Reach.init_fixed (Reach.add_range 0x42 0x43 (Reach.fresh 8 (by decide))))

end BvSls
